import Mathlib

/-!
# Verification of the `lru-cache.js` LRU cache

Shallow embedding of `src/lru-cache.js` (the `LRUCache` prototype) and proofs
of the specification's claims about it.

Modelling choices:
* Keys are `Nat` (the JS code uses object-property keys; any infinite type with
  decidable equality works the same way).
* A JS value may be `undefined`; we model values as `Val := Option Nat`, with
  `none` playing the role of `undefined`.  A method that can return either a
  stored value or `undefined` (`get`, `set`, `remove`) therefore returns `Val`.
* `CacheEntry` heap objects are addressed by allocation identifiers (`Nat`).
  The heap is the function `entries : Nat → Entry`; `nextId` is the allocation
  counter (fresh ids are never reused, mirroring distinct JS object
  identities).  `_store` is the function `store : Nat → Option Nat` from keys
  to entry ids (`none` = key absent, mirroring `undefined`).
* `_size` and `_cacheLimit` are JS numbers used as integers; we use `Int`
  so that `this._size--` and the comparison `_size > _cacheLimit` are exact.
* Every field access in a method body reads the heap at that program point;
  the embedding threads the state through each statement in source order.
-/

/-- JS values stored in the cache; `none` is `undefined`. -/
abbrev Val := Option Nat

/-- `CacheEntry(key, value, prev, next)` from the source: a list node holding a
key, a value and the two neighbour references (`none` = `undefined`). -/
structure Entry where
  key : Nat
  value : Val
  prev : Option Nat
  next : Option Nat
  deriving Repr, DecidableEq

/-- The `LRUCache` state: `_size`, `_cacheLimit`, `_first` (most recently
used), `_last` (least recently used), `_store` (key → entry id), the entry
heap, and the allocation counter for fresh entry ids. -/
structure Cache where
  size : Int
  cacheLimit : Int
  first : Option Nat
  last : Option Nat
  store : Nat → Option Nat
  entries : Nat → Entry
  nextId : Nat

/-- Heap update at one entry id. -/
def updE (f : Nat → Entry) (i : Nat) (g : Entry → Entry) : Nat → Entry :=
  fun j => if j = i then g (f i) else f j

/-- Store update at one key (`none` models `delete this._store[k]`). -/
def updS (f : Nat → Option Nat) (k : Nat) (v : Option Nat) : Nat → Option Nat :=
  fun j => if j = k then v else f j

/-- `new LRUCache(cacheLimit)`: empty cache. -/
def init (cacheLimit : Int) : Cache :=
  { size := 0, cacheLimit := cacheLimit, first := none, last := none,
    store := fun _ => none, entries := fun _ => ⟨0, none, none, none⟩, nextId := 0 }

namespace Cache

/-- `LRUCache.prototype._moveToFront(entry)`, entry given by its id. -/
def _moveToFront (s : Cache) (eid : Nat) : Cache :=
  -- if (entry === this._first) return;
  if s.first = some eid then s
  else
    -- if (entry.next) { if (entry === this._last) this._last = entry.next;
    --                   entry.next.prev = entry.prev; }
    let s1 :=
      match (s.entries eid).next with
      | some nid =>
          let sa := if s.last = some eid then { s with last := (s.entries eid).next } else s
          { sa with entries := updE sa.entries nid (fun e => { e with prev := (sa.entries eid).prev }) }
      | none => s
    -- if (entry.prev) entry.prev.next = entry.next;
    let s2 :=
      match (s1.entries eid).prev with
      | some pid =>
          { s1 with entries := updE s1.entries pid (fun e => { e with next := (s1.entries eid).next }) }
      | none => s1
    -- entry.next = undefined; entry.prev = this._first;
    let s3 := { s2 with entries := updE s2.entries eid (fun e => { e with next := none, prev := s2.first }) }
    -- if (this._first) this._first.next = entry;
    let s4 :=
      match s3.first with
      | some fid => { s3 with entries := updE s3.entries fid (fun e => { e with next := some eid }) }
      | none => s3
    -- this._first = entry;
    { s4 with first := some eid }

/-- `LRUCache.prototype.purge()`: removes the `_last` entry; returns the
removed entry (its `next`/`prev` zeroed, as in the source) or `undefined`. -/
def purge (s : Cache) : Option Entry × Cache :=
  -- var entry = this._last; if (entry) { ... } return entry;
  match s.last with
  | none => (none, s)
  | some eid =>
    -- if (this._last.next) { this._last = this._last.next; this._last.prev = undefined; }
    -- else { this._last = undefined; this._first = undefined; }
    let s1 :=
      match (s.entries eid).next with
      | some _ =>
          let sa := { s with last := (s.entries eid).next }
          match sa.last with
          | some nl => { sa with entries := updE sa.entries nl (fun e => { e with prev := none }) }
          | none => sa
      | none => { s with last := none, first := none }
    -- entry.next = entry.prev = undefined;
    let s2 := { s1 with entries := updE s1.entries eid (fun e => { e with next := none, prev := none }) }
    -- delete this._store[entry.key];
    let s3 := { s2 with store := updS s2.store ((s2.entries eid).key) none }
    -- this._size--;
    let s4 := { s3 with size := s3.size - 1 }
    (some (s4.entries eid), s4)

/-- `LRUCache.prototype.put(key, value)`: insert or update; returns the entry
evicted to make room, otherwise `undefined`. -/
def put (s : Cache) (key : Nat) (value : Val) : Option Entry × Cache :=
  -- var entry = this._store[key]; if (entry) { entry.value = value; this._moveToFront(entry); return; }
  match s.store key with
  | some eid =>
      let s1 := { s with entries := updE s.entries eid (fun e => { e with value := value }) }
      (none, s1._moveToFront eid)
  | none =>
      -- this._store[key] = entry = new CacheEntry(key, value, undefined, undefined);
      let n := s.nextId
      let s1 := { s with store := updS s.store key (some n),
                         entries := updE s.entries n (fun _ => ⟨key, value, none, none⟩),
                         nextId := n + 1 }
      -- if (this._first) { this._first.next = entry; entry.prev = this._first; }
      -- else this._last = entry;
      let s2 :=
        match s1.first with
        | some fid =>
            let sa := { s1 with entries := updE s1.entries fid (fun e => { e with next := some n }) }
            { sa with entries := updE sa.entries n (fun e => { e with prev := sa.first }) }
        | none => { s1 with last := some n }
      -- this._first = entry; this._size++;
      let s3 := { s2 with first := some n }
      let s4 := { s3 with size := s3.size + 1 }
      -- if (this._size > this._cacheLimit) return this.purge();
      if s4.size > s4.cacheLimit then s4.purge else (none, s4)

/-- `LRUCache.prototype._getEntry(key)`: look up, and on a hit register recent
use by moving the entry to the front.  Returns the entry (by id). -/
def _getEntry (s : Cache) (key : Nat) : Option Nat × Cache :=
  match s.store key with
  | none => (none, s)
  | some eid => (some eid, s._moveToFront eid)

/-- `LRUCache.prototype.get(key)`: value for `key`, registering recent use;
`undefined` when absent. -/
def get (s : Cache) (key : Nat) : Val × Cache :=
  match s._getEntry key with
  | (some eid, s1) => ((s1.entries eid).value, s1)
  | (none, s1) => (none, s1)

/-- `LRUCache.prototype.find(key)`: the entry for `key` (or `undefined`)
without registering recent use.  The method body is a single read
(`return this._store[key];`), so the state component is `s` itself. -/
def find (s : Cache) (key : Nat) : Option Entry × Cache :=
  ((s.store key).map s.entries, s)

/-- `LRUCache.prototype.set(key, value)`: update the value of an existing key
(registering recent use via `_getEntry`); returns the old value, or
`undefined` when the key is absent. -/
def set (s : Cache) (key : Nat) (value : Val) : Val × Cache :=
  match s._getEntry key with
  | (some eid, s1) =>
      ((s1.entries eid).value,
       { s1 with entries := updE s1.entries eid (fun e => { e with value := value }) })
  | (none, s1) => (none, s1)

/-- `LRUCache.prototype.remove(key)`: unlink and delete the entry for `key`;
returns its value, or `undefined` when absent. -/
def remove (s : Cache) (key : Nat) : Val × Cache :=
  -- var entry = this._store[key]; if (!entry) return;
  match s.store key with
  | none => (none, s)
  | some eid =>
    -- delete this._store[entry.key];
    let s1 := { s with store := updS s.store ((s.entries eid).key) none }
    let s2 :=
      match (s1.entries eid).next, (s1.entries eid).prev with
      | some _, some _ =>
          -- entry.prev.next = entry.next; entry.next.prev = entry.prev;
          let sa :=
            match (s1.entries eid).prev with
            | some pid => { s1 with entries := updE s1.entries pid (fun e => { e with next := (s1.entries eid).next }) }
            | none => s1
          match (sa.entries eid).next with
          | some nid => { sa with entries := updE sa.entries nid (fun e => { e with prev := (sa.entries eid).prev }) }
          | none => sa
      | some nid, none =>
          -- entry.next.prev = undefined; this._last = entry.next;
          let sa := { s1 with entries := updE s1.entries nid (fun e => { e with prev := none }) }
          { sa with last := (sa.entries eid).next }
      | none, some pid =>
          -- entry.prev.next = undefined; this._first = entry.prev;
          let sa := { s1 with entries := updE s1.entries pid (fun e => { e with next := none }) }
          { sa with first := (sa.entries eid).prev }
      | none, none =>
          -- this._last = this._first = undefined;
          { s1 with last := none, first := none }
    -- this._size--; return entry.value;
    let s3 := { s2 with size := s2.size - 1 }
    ((s3.entries eid).value, s3)

/-- `LRUCache.prototype.removeAll()`. -/
def removeAll (s : Cache) : Cache :=
  { s with last := none, first := none, size := 0, store := fun _ => none }

/-- The `while (entry) { ...; entry = entry.next; }` loop of `toJSON`,
with explicit fuel bounding the number of iterations. -/
def collect (ent : Nat → Entry) : Nat → Option Nat → List (Nat × Val)
  | _, none => []
  | 0, some _ => []
  | fuel + 1, some i => ((ent i).key, (ent i).value) :: collect ent fuel (ent i).next

/-- `LRUCache.prototype.toJSON()`: the `{key, value}` records from `_last`
along `next` links (least- to most-recently-used).  The loop runs once per
node of the chain; on every well-formed state the chain has `_size` nodes, so
fuel `_size` is exact.  The method mutates nothing: the state is `s`. -/
def toJSON (s : Cache) : List (Nat × Val) × Cache :=
  (collect s.entries s.size.toNat s.last, s)

/-- `LRUCache.prototype.keys()`: `Object.keys(this._store)` as a set (the
source documents the order as arbitrary). -/
def keys (s : Cache) : Set Nat :=
  { k | (s.store k).isSome }

end Cache

/-- A public operation of the cache API (arguments included). -/
inductive Op where
  | put (key : Nat) (value : Val)
  | get (key : Nat)
  | find (key : Nat)
  | set (key : Nat) (value : Val)
  | remove (key : Nat)
  | purge
  | removeAll
  | toJSON
  deriving Repr, DecidableEq

/-- State transition of one public operation (result discarded). -/
def Op.step (s : Cache) : Op → Cache
  | .put k v => (s.put k v).2
  | .get k => (s.get k).2
  | .find k => (s.find k).2
  | .set k v => (s.set k v).2
  | .remove k => (s.remove k).2
  | .purge => s.purge.2
  | .removeAll => s.removeAll
  | .toJSON => s.toJSON.2

/-- Run a sequence of public operations. -/
def runOps (s : Cache) : List Op → Cache
  | [] => s
  | op :: rest => runOps (op.step s) rest

/-- Left-biased choice on optional references. -/
def oor : Option Nat → Option Nat → Option Nat
  | some a, _ => some a
  | none, b => b

/-- `segOk ent pr l nx`: the ids in `l` form a well-linked doubly linked
segment of the heap `ent`, read tail-to-head: the first node's `prev` is
`pr`, consecutive nodes point at each other via `next`/`prev`, and the last
node's `next` is `nx`. -/
def segOk (ent : Nat → Entry) : Option Nat → List Nat → Option Nat → Prop
  | _, [], _ => True
  | pr, a :: rest, nx =>
      (ent a).prev = pr ∧ (ent a).next = oor rest.head? nx ∧ segOk ent (some a) rest nx

/-- Projection of the recency chain to the observable (key, value) pairs,
tail (least-recently-used) first. -/
def absList (s : Cache) (l : List Nat) : List (Nat × Val) :=
  l.map fun a => ((s.entries a).key, (s.entries a).value)

/-- The structural invariant of the cache, relative to the list `l` of entry
ids of the recency chain in tail-to-head order: the chain is well linked and
acyclic (`chain`, `nodup`), `_last`/`_first` are its two ends, the key index
is in lockstep with the chain (`store_sound`, `store_none`, `store_complete`),
`_size` is its length, and all ids are below the allocation counter. -/
structure WF (s : Cache) (l : List Nat) : Prop where
  chain : segOk s.entries none l none
  last_eq : s.last = l.head?
  first_eq : s.first = l.getLast?
  nodup : l.Nodup
  store_sound : ∀ k i, s.store k = some i → i ∈ l ∧ (s.entries i).key = k
  store_none : ∀ k, s.store k = none → ∀ a ∈ l, (s.entries a).key ≠ k
  store_complete : ∀ a ∈ l, s.store ((s.entries a).key) = some a
  size_eq : s.size = (l.length : Int)
  fresh : ∀ a ∈ l, a < s.nextId

/-- Run-time invariant: some chain witnesses well-formedness, the capacity is
the configured one, and the size fits it. -/
def CacheInv (cap : Int) (s : Cache) : Prop :=
  (∃ l, WF s l) ∧ s.cacheLimit = cap ∧ s.size ≤ cap

/-- Rebuild a cache by replaying `Put` over an exported (key, value) list. -/
def replayPut (c : Cache) : List (Nat × Val) → Cache
  | [] => c
  | (k, v) :: rest => replayPut (c.put k v).2 rest

def w1 : Cache := ((init 3).put 0 (some 10)).2

def w2 : Cache := (w1.put 1 (some 11)).2

/-! ## Invariant infrastructure -/

@[simp] theorem oor_some (a : Nat) (b : Option Nat) : oor (some a) b = some a := rfl

@[simp] theorem oor_none (b : Option Nat) : oor none b = b := rfl

@[simp] theorem oor_none_right (a : Option Nat) : oor a none = a := by
  cases a <;> rfl

theorem oor_assoc (a b c : Option Nat) : oor (oor a b) c = oor a (oor b c) := by
  cases a <;> rfl

@[simp] theorem segOk_nil (ent : Nat → Entry) (pr nx : Option Nat) :
    segOk ent pr [] nx := trivial

theorem segOk_cons {ent : Nat → Entry} {pr nx : Option Nat} {a : Nat} {rest : List Nat} :
    segOk ent pr (a :: rest) nx ↔
      (ent a).prev = pr ∧ (ent a).next = oor rest.head? nx ∧ segOk ent (some a) rest nx :=
  Iff.rfl

theorem segOk_singleton {ent : Nat → Entry} {pr nx : Option Nat} {a : Nat} :
    segOk ent pr [a] nx ↔ (ent a).prev = pr ∧ (ent a).next = nx := by
  simp [segOk]

/-- Framing: a segment is insensitive to heap changes outside its ids. -/
theorem segOk_congr {ent ent' : Nat → Entry} {pr nx : Option Nat} {l : List Nat}
    (hfr : ∀ i ∈ l, ent' i = ent i) (h : segOk ent pr l nx) : segOk ent' pr l nx := by
  induction l generalizing pr with
  | nil => trivial
  | cons a rest ih =>
      obtain ⟨h1, h2, h3⟩ := h
      have ha := hfr a (List.mem_cons_self _ _)
      exact ⟨ha ▸ h1, ha ▸ h2, ih (fun i hi => hfr i (List.mem_cons_of_mem _ hi)) h3⟩

theorem head?_app (l₁ l₂ : List Nat) : (l₁ ++ l₂).head? = oor l₁.head? l₂.head? := by
  cases l₁ <;> rfl

theorem getLast?_cons' (a : Nat) (l : List Nat) :
    (a :: l).getLast? = oor l.getLast? (some a) := by
  induction l generalizing a with
  | nil => rfl
  | cons b t ih =>
      rw [List.getLast?_cons_cons, ih b]
      cases t.getLast? <;> rfl

theorem getLast?_app (l₁ l₂ : List Nat) :
    (l₁ ++ l₂).getLast? = oor l₂.getLast? l₁.getLast? := by
  induction l₁ with
  | nil => simp
  | cons a t ih =>
      rw [List.cons_append, getLast?_cons' a (t ++ l₂), ih, getLast?_cons' a t, oor_assoc]

/-- Splitting / joining doubly linked segments at a seam. -/
theorem segOk_append {ent : Nat → Entry} {pr nx : Option Nat} {l₁ l₂ : List Nat} :
    segOk ent pr (l₁ ++ l₂) nx ↔
      segOk ent pr l₁ (oor l₂.head? nx) ∧ segOk ent (oor l₁.getLast? pr) l₂ nx := by
  induction l₁ generalizing pr with
  | nil => simp
  | cons a t ih =>
      rw [List.cons_append, segOk_cons, segOk_cons, ih, head?_app, oor_assoc,
        getLast?_cons' a t]
      constructor
      · rintro ⟨h1, h2, h3, h4⟩
        refine ⟨⟨h1, h2, h3⟩, ?_⟩
        cases ht : t.getLast? with
        | none => simpa [ht] using h4
        | some x => simpa [ht] using h4
      · rintro ⟨⟨h1, h2, h3⟩, h4⟩
        refine ⟨h1, h2, h3, ?_⟩
        cases ht : t.getLast? with
        | none => simpa [ht] using h4
        | some x => simpa [ht] using h4

/-- Re-point the `next` of the final node of a segment. -/
theorem segOk_retarget {ent ent' : Nat → Entry} {pr nx nx' : Option Nat}
    (l₀ : List Nat) (j : Nat)
    (hfr : ∀ i ∈ l₀, ent' i = ent i)
    (hprev : (ent' j).prev = (ent j).prev)
    (hnext : (ent' j).next = nx')
    (h : segOk ent pr (l₀ ++ [j]) nx) :
    segOk ent' pr (l₀ ++ [j]) nx' := by
  induction l₀ generalizing pr with
  | nil =>
      obtain ⟨h1, h2, -⟩ := h
      exact ⟨hprev.trans h1, by simpa using hnext, trivial⟩
  | cons a t ih =>
      obtain ⟨h1, h2, h3⟩ := h
      have ha := hfr a (List.mem_cons_self _ _)
      refine ⟨ha ▸ h1, ?_, ih (fun i hi => hfr i (List.mem_cons_of_mem _ hi)) h3⟩
      rw [ha, h2]
      cases t <;> rfl

/-- Re-point the `prev` of the first node of a segment. -/
theorem segOk_rehead {ent ent' : Nat → Entry} {pr pr' nx : Option Nat} {j : Nat} {t : List Nat}
    (hfr : ∀ i ∈ t, ent' i = ent i)
    (hprev : (ent' j).prev = pr')
    (hnext : (ent' j).next = (ent j).next)
    (h : segOk ent pr (j :: t) nx) :
    segOk ent' pr' (j :: t) nx :=
  ⟨hprev, hnext.trans h.2.1, segOk_congr hfr h.2.2⟩

@[simp] theorem updE_self (f : Nat → Entry) (i : Nat) (g : Entry → Entry) :
    updE f i g i = g (f i) := by simp [updE]

theorem updE_other (f : Nat → Entry) (i j : Nat) (g : Entry → Entry) (h : j ≠ i) :
    updE f i g j = f j := by simp [updE, h]

@[simp] theorem updS_self (f : Nat → Option Nat) (k : Nat) (v : Option Nat) :
    updS f k v k = v := by simp [updS]

theorem updS_other (f : Nat → Option Nat) (k j : Nat) (v : Option Nat) (h : j ≠ k) :
    updS f k v j = f j := by simp [updS, h]

/-- The empty cache is well formed. -/
theorem wf_init (cacheLimit : Int) : WF (init cacheLimit) [] := by
  refine ⟨trivial, rfl, rfl, List.nodup_nil, ?_, ?_, ?_, rfl, ?_⟩
  · intro k i h; exact absurd h (by simp [init])
  · intro k _ a ha; exact absurd ha (List.not_mem_nil a)
  · intro a ha; exact absurd ha (List.not_mem_nil a)
  · intro a ha; exact absurd ha (List.not_mem_nil a)

/-! ## Operation description lemmas

Each lemma evaluates one control-flow path of a method into an explicit
state, under hypotheses that fix the discriminants read along the path. -/

theorem updE_kv {f : Nat → Entry} {i : Nat} {g : Entry → Entry}
    (hg : ∀ e, (g e).key = e.key ∧ (g e).value = e.value) (b : Nat) :
    ((updE f i g) b).key = (f b).key ∧ ((updE f i g) b).value = (f b).value := by
  unfold updE
  split_ifs with h
  · subst h; exact hg (f b)
  · exact ⟨rfl, rfl⟩

theorem mtf_guard {s : Cache} {a : Nat} (h : s.first = some a) :
    s._moveToFront a = s := by
  simp [Cache._moveToFront, h]

theorem mtf_desc₁ {s : Cache} {a b f : Nat}
    (hfst : s.first = some f) (hfa : f ≠ a)
    (hnext : (s.entries a).next = some b) (hab : a ≠ b)
    (hprev : (s.entries a).prev = none)
    (hlast : s.last = some a) :
    s._moveToFront a =
      { s with
        last := some b,
        first := some a,
        entries := updE (updE (updE s.entries b (fun e => { e with prev := none }))
            a (fun e => { e with next := none, prev := some f }))
            f (fun e => { e with next := some a }) } := by
  simp only [Cache._moveToFront, hfst, hnext, hprev, hlast, Option.some.injEq, hfa,
    if_false, if_true, eq_self_iff_true, updE_other _ _ _ _ hab, if_pos]

theorem mtf_desc₂ {s : Cache} {a b f p pl : Nat}
    (hfst : s.first = some f) (hfa : f ≠ a)
    (hnext : (s.entries a).next = some b) (hab : a ≠ b)
    (hprev : (s.entries a).prev = some pl)
    (hlast : s.last = some p) (hpa : p ≠ a) :
    s._moveToFront a =
      { s with
        first := some a,
        entries := updE (updE (updE (updE s.entries b (fun e => { e with prev := some pl }))
            pl (fun e => { e with next := some b }))
            a (fun e => { e with next := none, prev := some f }))
            f (fun e => { e with next := some a }) } := by
  simp only [Cache._moveToFront, hfst, hnext, hprev, hlast, Option.some.injEq, hfa, hpa,
    if_false, if_true, eq_self_iff_true, updE_other _ _ _ _ hab, if_pos]

theorem purge_empty {s : Cache} (h : s.last = none) : s.purge = (none, s) := by
  simp [Cache.purge, h]

theorem purge_desc₁ {s : Cache} {a : Nat}
    (hlast : s.last = some a) (hnext : (s.entries a).next = none) :
    s.purge =
      (some { key := (s.entries a).key, value := (s.entries a).value, prev := none, next := none },
       { s with
         last := none, first := none,
         entries := updE s.entries a (fun e => { e with next := none, prev := none }),
         store := updS s.store ((s.entries a).key) none,
         size := s.size - 1 }) := by
  simp only [Cache.purge, hlast, hnext, updE_self]

theorem purge_desc₂ {s : Cache} {a b : Nat}
    (hlast : s.last = some a) (hnext : (s.entries a).next = some b) (hab : a ≠ b) :
    s.purge =
      (some { key := (s.entries a).key, value := (s.entries a).value, prev := none, next := none },
       { s with
         last := some b,
         entries := updE (updE s.entries b (fun e => { e with prev := none }))
            a (fun e => { e with next := none, prev := none }),
         store := updS s.store ((s.entries a).key) none,
         size := s.size - 1 }) := by
  simp only [Cache.purge, hlast, hnext, updE_self, updE_other _ _ _ _ hab]

theorem put_hit_desc {s : Cache} {k : Nat} {v : Val} {eid : Nat}
    (hstore : s.store k = some eid) :
    s.put k v =
      (none, Cache._moveToFront
        { s with entries := updE s.entries eid (fun e => { e with value := v }) } eid) := by
  simp [Cache.put, hstore]

theorem put_new_desc₁ {s : Cache} {k : Nat} {v : Val}
    (hstore : s.store k = none) (hfst : s.first = none) :
    s.put k v =
      (let s4 : Cache :=
        { s with
          store := updS s.store k (some s.nextId),
          entries := updE s.entries s.nextId (fun _ => ⟨k, v, none, none⟩),
          nextId := s.nextId + 1,
          last := some s.nextId,
          first := some s.nextId,
          size := s.size + 1 }
       if s4.size > s4.cacheLimit then s4.purge else (none, s4)) := by
  simp only [Cache.put, hstore, hfst]

theorem put_new_desc₂ {s : Cache} {k : Nat} {v : Val} {fid : Nat}
    (hstore : s.store k = none) (hfst : s.first = some fid) :
    s.put k v =
      (let s4 : Cache :=
        { s with
          store := updS s.store k (some s.nextId),
          entries := updE (updE (updE s.entries s.nextId (fun _ => ⟨k, v, none, none⟩))
              fid (fun e => { e with next := some s.nextId }))
              s.nextId (fun e => { e with prev := some fid }),
          nextId := s.nextId + 1,
          first := some s.nextId,
          size := s.size + 1 }
       if s4.size > s4.cacheLimit then s4.purge else (none, s4)) := by
  simp only [Cache.put, hstore, hfst]

theorem remove_miss {s : Cache} {k : Nat} (h : s.store k = none) :
    s.remove k = (none, s) := by
  simp [Cache.remove, h]

theorem remove_desc_mid {s : Cache} {k eid nid pl : Nat}
    (hstore : s.store k = some eid)
    (hn : (s.entries eid).next = some nid) (hp : (s.entries eid).prev = some pl)
    (hepl : eid ≠ pl) (hen : eid ≠ nid) :
    s.remove k =
      ((s.entries eid).value,
       { s with
         store := updS s.store ((s.entries eid).key) none,
         entries := updE (updE s.entries pl (fun e => { e with next := some nid }))
             nid (fun e => { e with prev := some pl }),
         size := s.size - 1 }) := by
  simp only [Cache.remove, hstore, hn, hp, updE_self,
    updE_other _ _ _ _ hepl, updE_other _ _ _ _ hen]

theorem remove_desc_tail {s : Cache} {k eid nid : Nat}
    (hstore : s.store k = some eid)
    (hn : (s.entries eid).next = some nid) (hp : (s.entries eid).prev = none)
    (hen : eid ≠ nid) :
    s.remove k =
      ((s.entries eid).value,
       { s with
         store := updS s.store ((s.entries eid).key) none,
         entries := updE s.entries nid (fun e => { e with prev := none }),
         last := some nid,
         size := s.size - 1 }) := by
  simp only [Cache.remove, hstore, hn, hp, updE_self, updE_other _ _ _ _ hen]

theorem remove_desc_head {s : Cache} {k eid pl : Nat}
    (hstore : s.store k = some eid)
    (hn : (s.entries eid).next = none) (hp : (s.entries eid).prev = some pl)
    (hepl : eid ≠ pl) :
    s.remove k =
      ((s.entries eid).value,
       { s with
         store := updS s.store ((s.entries eid).key) none,
         entries := updE s.entries pl (fun e => { e with next := none }),
         first := some pl,
         size := s.size - 1 }) := by
  simp only [Cache.remove, hstore, hn, hp, updE_self, updE_other _ _ _ _ hepl]

theorem remove_desc_single {s : Cache} {k eid : Nat}
    (hstore : s.store k = some eid)
    (hn : (s.entries eid).next = none) (hp : (s.entries eid).prev = none) :
    s.remove k =
      ((s.entries eid).value,
       { s with
         store := updS s.store ((s.entries eid).key) none,
         last := none, first := none,
         size := s.size - 1 }) := by
  simp only [Cache.remove, hstore, hn, hp]

/-! ## Decomposition of the invariant at a chain position -/

theorem nodup_split {l₁ l₂ : List Nat} {a : Nat} (h : (l₁ ++ a :: l₂).Nodup) :
    l₁.Nodup ∧ l₂.Nodup ∧ a ∉ l₁ ∧ a ∉ l₂ ∧ ∀ x ∈ l₁, x ∉ l₂ := by
  rw [List.nodup_append] at h
  obtain ⟨h1, h2, h3⟩ := h
  rw [List.nodup_cons] at h2
  refine ⟨h1, h2.2, fun hm => h3 hm (List.mem_cons_self a l₂), h2.1, fun x hx hx2 => h3 hx (List.mem_cons_of_mem _ hx2)⟩

theorem wf_decomp {s : Cache} {l₁ l₂ : List Nat} {a : Nat} (h : WF s (l₁ ++ a :: l₂)) :
    segOk s.entries none l₁ (some a) ∧
    (s.entries a).prev = l₁.getLast? ∧
    (s.entries a).next = l₂.head? ∧
    segOk s.entries (some a) l₂ none ∧
    s.last = oor l₁.head? (some a) ∧
    s.first = oor l₂.getLast? (some a) := by
  have hch := h.chain
  rw [segOk_append] at hch
  obtain ⟨hc1, hc2⟩ := hch
  rw [oor_none_right] at hc1 hc2
  obtain ⟨hp, hn, hc3⟩ := hc2
  rw [oor_none_right] at hn
  refine ⟨by simpa using hc1, hp, hn, hc3, ?_, ?_⟩
  · rw [h.last_eq, head?_app]; rfl
  · rw [h.first_eq, getLast?_app, getLast?_cons', oor_assoc]; rfl

theorem mem_of_getLast?' {l : List Nat} {f : Nat} (h : l.getLast? = some f) : f ∈ l := by
  have hd := List.dropLast_append_getLast? f (by rw [Option.mem_def]; exact h)
  rw [← hd]
  simp

theorem getLast?_some_of_ne_nil {l : List Nat} (h : l ≠ []) : ∃ f, l.getLast? = some f := by
  cases l with
  | nil => exact absurd rfl h
  | cons a t =>
      rw [getLast?_cons']
      cases t.getLast? with
      | none => exact ⟨a, rfl⟩
      | some x => exact ⟨x, rfl⟩

theorem perm_reassemble (l₁ l₂ : List Nat) (a : Nat) :
    (l₁ ++ a :: l₂).Perm (l₁ ++ l₂ ++ [a]) := by
  rw [List.append_assoc]
  refine List.Perm.append_left _ ?_
  exact (List.perm_append_comm : List.Perm ([a] ++ l₂) (l₂ ++ [a]))

theorem mtf_frame (s : Cache) (a : Nat) :
    (s._moveToFront a).store = s.store ∧ (s._moveToFront a).size = s.size ∧
    (s._moveToFront a).cacheLimit = s.cacheLimit ∧ (s._moveToFront a).nextId = s.nextId ∧
    ∀ i, ((s._moveToFront a).entries i).key = (s.entries i).key ∧
         ((s._moveToFront a).entries i).value = (s.entries i).value := by
  unfold Cache._moveToFront
  split
  · exact ⟨rfl, rfl, rfl, rfl, fun i => ⟨rfl, rfl⟩⟩
  · dsimp only
    repeat' split
    all_goals
      refine ⟨rfl, rfl, rfl, rfl, fun i => ⟨?_, ?_⟩⟩ <;>
        (simp only [updE]; split_ifs <;> subst_vars <;> rfl)

theorem wf_transfer {s F : Cache} {l L : List Nat}
    (h : WF s l)
    (hstore : F.store = s.store)
    (hkey : ∀ i, (F.entries i).key = (s.entries i).key)
    (hmem : ∀ i, i ∈ L ↔ i ∈ l) :
    (∀ k i, F.store k = some i → i ∈ L ∧ (F.entries i).key = k) ∧
    (∀ k, F.store k = none → ∀ b ∈ L, (F.entries b).key ≠ k) ∧
    (∀ b ∈ L, F.store ((F.entries b).key) = some b) := by
  refine ⟨?_, ?_, ?_⟩
  · intro k i hk
    rw [hstore] at hk
    obtain ⟨hm, hkey'⟩ := h.store_sound k i hk
    exact ⟨(hmem i).mpr hm, (hkey i).trans hkey'⟩
  · intro k hk b hb
    rw [hstore] at hk
    rw [hkey b]
    exact h.store_none k hk b ((hmem b).mp hb)
  · intro b hb
    rw [hstore, hkey b]
    exact h.store_complete b ((hmem b).mp hb)

theorem mtf_wf {s : Cache} {l₁ l₂ : List Nat} {a : Nat} (h : WF s (l₁ ++ a :: l₂)) :
    WF (s._moveToFront a) (l₁ ++ l₂ ++ [a]) := by
  obtain ⟨hA, hBp, hBn, hB2, hLast, hFst⟩ := wf_decomp h
  obtain ⟨hn₁, hn₂, ha₁, ha₂, hdisj⟩ := nodup_split h.nodup
  cases l₂ with
  | nil =>
      have hfst : s.first = some a := by rw [hFst]; rfl
      rw [mtf_guard hfst]
      simpa using h
  | cons b t =>
      have hab : a ≠ b := fun hEq => ha₂ (hEq ▸ List.mem_cons_self b t)
      obtain ⟨f, hf⟩ := getLast?_some_of_ne_nil (l := b :: t) (by simp)
      have hfmem : f ∈ b :: t := mem_of_getLast?' hf
      have hfa : f ≠ a := fun hEq => ha₂ (hEq ▸ hfmem)
      have hFst' : s.first = some f := by rw [hFst, hf]; rfl
      have hBn' : (s.entries a).next = some b := hBn
      have hbt : b ∉ t := (List.nodup_cons.mp hn₂).1
      have hmemperm := fun i => (List.Perm.mem_iff (a := i) (perm_reassemble l₁ (b :: t) a)).symm
      have hlen : ((l₁ ++ (b :: t) ++ [a]).length : Int) = ((l₁ ++ a :: b :: t).length : Int) :=
        congrArg _ (perm_reassemble l₁ (b :: t) a).length_eq.symm
      cases l₁ with
      | nil =>
          have hLast' : s.last = some a := by rw [hLast]; rfl
          have hPrev' : (s.entries a).prev = none := hBp
          rw [mtf_desc₁ hFst' hfa hBn' hab hPrev' hLast']
          set E1 := updE s.entries b (fun e => { e with prev := none }) with hE1
          set E2 := updE E1 a (fun e => { e with next := none, prev := some f }) with hE2
          set E3 := updE E2 f (fun e => { e with next := some a }) with hE3
          have hkey : ∀ i, (E3 i).key = (s.entries i).key := by
            intro i
            rw [hE3, hE2, hE1]
            simp only [updE]
            split_ifs <;> subst_vars <;> rfl
          have hEa : E3 a = { s.entries a with next := none, prev := some f } := by
            rw [hE3, updE_other _ _ _ _ (Ne.symm hfa), hE2, updE_self, hE1,
              updE_other _ _ _ _ hab]
          have step1 : segOk E1 none (b :: t) none := by
            refine segOk_rehead ?_ ?_ ?_ hB2
            · intro i hi
              exact updE_other _ _ _ _ (fun hEq => hbt (hEq ▸ hi))
            · rw [hE1, updE_self]
            · rw [hE1, updE_self]
          have step2 : segOk E2 none (b :: t) none := by
            refine segOk_congr ?_ step1
            intro i hi
            exact updE_other _ _ _ _ (fun hEq => ha₂ (hEq ▸ hi))
          have hdl : (b :: t).dropLast ++ [f] = b :: t :=
            List.dropLast_append_getLast? f (by rw [Option.mem_def]; exact hf)
          have hfdl : f ∉ (b :: t).dropLast := by
            have hnd := hn₂
            rw [← hdl, List.nodup_append] at hnd
            exact fun hm => hnd.2.2 hm (by simp)
          have step3 : segOk E3 none (b :: t) (some a) := by
            rw [← hdl]
            refine segOk_retarget _ f ?_ ?_ ?_ (by rw [hdl]; exact step2)
            · intro i hi
              exact updE_other _ _ _ _ (fun hEq => hfdl (hEq ▸ hi))
            · rw [hE3, updE_self]
            · rw [hE3, updE_self]
          simp only [List.nil_append] at hmemperm hlen ⊢
          obtain ⟨hss, hsn, hsc⟩ := wf_transfer
            (F := { s with last := some b, first := some a, entries := E3 }) h rfl hkey hmemperm
          refine WF.mk ?_ rfl ?_ ?_ hss hsn hsc ?_ ?_
          · show segOk E3 none ((b :: t) ++ [a]) none
            rw [segOk_append]
            refine ⟨step3, ?_⟩
            rw [oor_none_right, hf]
            refine segOk_singleton.mpr ⟨?_, ?_⟩
            · show (E3 a).prev = some f
              rw [hEa]
            · show (E3 a).next = none
              rw [hEa]
          · exact (List.getLast?_concat _).symm
          · exact (perm_reassemble [] (b :: t) a).nodup h.nodup
          · show s.size = _
            rw [h.size_eq]
            simp only [List.nil_append]
            exact hlen.symm
          · intro i hi
            exact h.fresh i ((hmemperm i).mp hi)
      | cons p t₁ =>
          have hpa : p ≠ a := fun hEq => ha₁ (hEq ▸ List.mem_cons_self p t₁)
          obtain ⟨pl, hpl⟩ := getLast?_some_of_ne_nil (l := p :: t₁) (by simp)
          have hplmem : pl ∈ p :: t₁ := mem_of_getLast?' hpl
          have hpla : pl ≠ a := fun hEq => ha₁ (hEq ▸ hplmem)
          have hplb : pl ≠ b := fun hEq => hdisj pl hplmem (hEq ▸ List.mem_cons_self b t)
          have hplf : pl ≠ f := fun hEq => hdisj pl hplmem (hEq ▸ hfmem)
          have hPrev' : (s.entries a).prev = some pl := by rw [hBp, hpl]
          have hLast' : s.last = some p := by rw [hLast]; rfl
          rw [mtf_desc₂ hFst' hfa hBn' hab hPrev' hLast' hpa]
          set E1 := updE s.entries b (fun e => { e with prev := some pl }) with hE1
          set E2 := updE E1 pl (fun e => { e with next := some b }) with hE2
          set E3 := updE E2 a (fun e => { e with next := none, prev := some f }) with hE3
          set E4 := updE E3 f (fun e => { e with next := some a }) with hE4
          have hkey : ∀ i, (E4 i).key = (s.entries i).key := by
            intro i
            rw [hE4, hE3, hE2, hE1]
            simp only [updE]
            split_ifs <;> subst_vars <;> rfl
          have hEa : E4 a = { s.entries a with next := none, prev := some f } := by
            rw [hE4, updE_other _ _ _ _ (Ne.symm hfa), hE3, updE_self, hE2,
              updE_other _ _ _ _ (Ne.symm hpla), hE1, updE_other _ _ _ _ hab]
          have hEpl : E4 pl = { s.entries pl with next := some b } := by
            rw [hE4, updE_other _ _ _ _ hplf, hE3, updE_other _ _ _ _ hpla, hE2,
              updE_self, hE1, updE_other _ _ _ _ hplb]
          have hdl₁ : (p :: t₁).dropLast ++ [pl] = p :: t₁ :=
            List.dropLast_append_getLast? pl (by rw [Option.mem_def]; exact hpl)
          have hpldl : pl ∉ (p :: t₁).dropLast := by
            have hnd := hn₁
            rw [← hdl₁, List.nodup_append] at hnd
            exact fun hm => hnd.2.2 hm (by simp)
          have hframe₁ : ∀ i ∈ (p :: t₁).dropLast, E4 i = s.entries i := by
            intro i hi
            have him : i ∈ p :: t₁ := by rw [← hdl₁]; exact List.mem_append_left _ hi
            have hif : i ≠ f := fun hEq => hdisj f (hEq ▸ him) hfmem
            have hia : i ≠ a := fun hEq => ha₁ (hEq ▸ him)
            have hipl : i ≠ pl := fun hEq => hpldl (hEq ▸ hi)
            have hib : i ≠ b := fun hEq => hdisj b (hEq ▸ him) (List.mem_cons_self b t)
            rw [hE4, updE_other _ _ _ _ hif, hE3, updE_other _ _ _ _ hia,
              hE2, updE_other _ _ _ _ hipl, hE1, updE_other _ _ _ _ hib]
          have G1 : segOk E4 none (p :: t₁) (some b) := by
            rw [← hdl₁]
            refine segOk_retarget _ pl hframe₁ ?_ ?_ (by rw [hdl₁]; exact hA)
            · rw [hEpl]
            · rw [hEpl]
          have G2 : segOk E4 (some pl) (b :: t) (some a) := by
            cases t with
            | nil =>
                have hfb : b = f := by simpa using hf
                subst hfb
                refine segOk_singleton.mpr ⟨?_, ?_⟩
                · rw [hE4, updE_self, hE3, updE_other _ _ _ _ hab.symm, hE2,
                    updE_other _ _ _ _ hplb.symm, hE1, updE_self]
                · rw [hE4, updE_self]
            | cons c t' =>
                have hf' : (c :: t').getLast? = some f := by
                  rw [List.getLast?_cons_cons] at hf; exact hf
                have hfmem' : f ∈ c :: t' := mem_of_getLast?' hf'
                have hfb : f ≠ b := fun hEq => hbt (hEq ▸ hfmem')
                have hEb : E4 b = { s.entries b with prev := some pl } := by
                  rw [hE4, updE_other _ _ _ _ (Ne.symm hfb), hE3,
                    updE_other _ _ _ _ hab.symm, hE2, updE_other _ _ _ _ hplb.symm,
                    hE1, updE_self]
                have hnb : (s.entries b).next = some c := by
                  have hx := hB2.2.1
                  simpa using hx
                refine segOk_cons.mpr ⟨by rw [hEb], ?_, ?_⟩
                · rw [hEb]
                  show (s.entries b).next = oor (c :: t').head? (some a)
                  rw [hnb]
                  rfl
                · have hdl₂ : (c :: t').dropLast ++ [f] = c :: t' :=
                    List.dropLast_append_getLast? f (by rw [Option.mem_def]; exact hf')
                  have hfdl₂ : f ∉ (c :: t').dropLast := by
                    have hnd := (List.nodup_cons.mp hn₂).2
                    rw [← hdl₂, List.nodup_append] at hnd
                    exact fun hm => hnd.2.2 hm (by simp)
                  have hEf : E4 f = { s.entries f with next := some a } := by
                    rw [hE4, updE_self, hE3, updE_other _ _ _ _ hfa, hE2,
                      updE_other _ _ _ _ (Ne.symm hplf), hE1, updE_other _ _ _ _ hfb]
                  rw [← hdl₂]
                  refine segOk_retarget _ f ?_ ?_ ?_ (by rw [hdl₂]; exact hB2.2.2)
                  · intro i hi
                    have him : i ∈ c :: t' := by rw [← hdl₂]; exact List.mem_append_left _ hi
                    have himt : i ∈ b :: c :: t' := List.mem_cons_of_mem _ him
                    have hif : i ≠ f := fun hEq => hfdl₂ (hEq ▸ hi)
                    have hia : i ≠ a := fun hEq => ha₂ (hEq ▸ himt)
                    have hipl : i ≠ pl := fun hEq => hdisj pl hplmem (hEq ▸ himt)
                    have hib : i ≠ b := fun hEq => hbt (hEq ▸ him)
                    rw [hE4, updE_other _ _ _ _ hif, hE3, updE_other _ _ _ _ hia,
                      hE2, updE_other _ _ _ _ hipl, hE1, updE_other _ _ _ _ hib]
                  · rw [hEf]
                  · rw [hEf]
          obtain ⟨hss, hsn, hsc⟩ := wf_transfer
            (F := { s with first := some a, entries := E4 }) h rfl hkey hmemperm
          refine WF.mk ?_ ?_ ?_ ?_ hss hsn hsc ?_ ?_
          · show segOk E4 none ((p :: t₁) ++ (b :: t) ++ [a]) none
            rw [segOk_append]
            constructor
            · rw [segOk_append]
              refine ⟨G1, ?_⟩
              rw [oor_none_right, hpl]
              exact G2
            · rw [oor_none_right, getLast?_app, hf]
              refine segOk_singleton.mpr ⟨?_, ?_⟩
              · show (E4 a).prev = some f
                rw [hEa]
              · show (E4 a).next = none
                rw [hEa]
          · exact hLast'
          · exact (List.getLast?_concat _).symm
          · exact (perm_reassemble (p :: t₁) (b :: t) a).nodup h.nodup
          · show s.size = _
            rw [h.size_eq]
            exact hlen.symm
          · intro i hi
            exact h.fresh i ((hmemperm i).mp hi)

/-- Segments only depend on the `prev`/`next` fields of their nodes. -/
theorem segOk_congr_pn {ent ent' : Nat → Entry} {pr nx : Option Nat} {l : List Nat}
    (hfr : ∀ i ∈ l, (ent' i).prev = (ent i).prev ∧ (ent' i).next = (ent i).next)
    (h : segOk ent pr l nx) : segOk ent' pr l nx := by
  induction l generalizing pr with
  | nil => trivial
  | cons a rest ih =>
      obtain ⟨h1, h2, h3⟩ := h
      obtain ⟨hp, hn⟩ := hfr a (List.mem_cons_self _ _)
      exact ⟨hp.trans h1, hn.trans h2,
        ih (fun i hi => hfr i (List.mem_cons_of_mem _ hi)) h3⟩

theorem absList_nil (s : Cache) : absList s [] = [] := rfl

theorem absList_append (s : Cache) (m₁ m₂ : List Nat) :
    absList s (m₁ ++ m₂) = absList s m₁ ++ absList s m₂ :=
  List.map_append _ _ _

theorem absList_congr {F s : Cache} {m : List Nat}
    (hkv : ∀ i ∈ m, (F.entries i).key = (s.entries i).key ∧
      (F.entries i).value = (s.entries i).value) :
    absList F m = absList s m := by
  induction m with
  | nil => rfl
  | cons a t ih =>
      obtain ⟨hk, hv⟩ := hkv a (List.mem_cons_self _ _)
      have ht := ih (fun i hi => hkv i (List.mem_cons_of_mem _ hi))
      simp only [absList, List.map_cons] at ht ⊢
      rw [hk, hv, ht]

/-- Overwriting only the `value` of one entry keeps the invariant. -/
theorem wf_value_update {s : Cache} {l : List Nat} (h : WF s l) (eid : Nat) (v : Val) :
    WF { s with entries := updE s.entries eid (fun e => { e with value := v }) } l := by
  have hpn : ∀ i, ((updE s.entries eid (fun e => { e with value := v })) i).prev = (s.entries i).prev ∧
      ((updE s.entries eid (fun e => { e with value := v })) i).next = (s.entries i).next := by
    intro i
    simp only [updE]
    split_ifs <;> subst_vars <;> exact ⟨rfl, rfl⟩
  have hkey : ∀ i, ((updE s.entries eid (fun e => { e with value := v })) i).key = (s.entries i).key := by
    intro i
    simp only [updE]
    split_ifs <;> subst_vars <;> rfl
  obtain ⟨hss, hsn, hsc⟩ := wf_transfer
    (F := { s with entries := updE s.entries eid (fun e => { e with value := v }) })
    h rfl hkey (fun i => Iff.rfl)
  exact ⟨segOk_congr_pn (fun i _ => hpn i) h.chain, h.last_eq, h.first_eq, h.nodup,
    hss, hsn, hsc, h.size_eq, h.fresh⟩

theorem put_hit_spec {s : Cache} {l₁ l₂ : List Nat} {eid k : Nat} {v : Val}
    (h : WF s (l₁ ++ eid :: l₂)) (hstore : s.store k = some eid) :
    (s.put k v).1 = none ∧
    WF (s.put k v).2 (l₁ ++ l₂ ++ [eid]) ∧
    absList (s.put k v).2 (l₁ ++ l₂ ++ [eid]) =
      absList s l₁ ++ absList s l₂ ++ [(k, v)] ∧
    (s.put k v).2.size = s.size ∧
    (s.put k v).2.cacheLimit = s.cacheLimit ∧
    (s.put k v).2.store = s.store ∧
    (s.put k v).2.nextId = s.nextId := by
  obtain ⟨hn₁, hn₂, ha₁, ha₂, hdisj⟩ := nodup_split h.nodup
  have hkeid : (s.entries eid).key = k := (h.store_sound k eid hstore).2
  rw [put_hit_desc hstore]
  have hwfS : WF { s with entries := updE s.entries eid (fun e => { e with value := v }) }
      (l₁ ++ eid :: l₂) := wf_value_update h eid v
  have hmtf := mtf_wf hwfS
  obtain ⟨hmst, hmsz, hmcap, hmnid, hmkv⟩ :=
    mtf_frame { s with entries := updE s.entries eid (fun e => { e with value := v }) } eid
  refine ⟨rfl, hmtf, ?_, by rw [hmsz], by rw [hmcap], by rw [hmst], by rw [hmnid]⟩
  rw [absList_congr (fun i _ => hmkv i), absList_append, absList_append]
  have habs₁ : absList { s with entries := updE s.entries eid (fun e => { e with value := v }) } l₁
      = absList s l₁ := by
    refine absList_congr ?_
    intro i hi
    have hie : i ≠ eid := fun hEq => ha₁ (hEq ▸ hi)
    rw [show ({ s with entries := updE s.entries eid (fun e => { e with value := v }) } : Cache).entries
      = updE s.entries eid (fun e => { e with value := v }) from rfl, updE_other _ _ _ _ hie]
    exact ⟨rfl, rfl⟩
  have habs₂ : absList { s with entries := updE s.entries eid (fun e => { e with value := v }) } l₂
      = absList s l₂ := by
    refine absList_congr ?_
    intro i hi
    have hie : i ≠ eid := fun hEq => ha₂ (hEq ▸ hi)
    rw [show ({ s with entries := updE s.entries eid (fun e => { e with value := v }) } : Cache).entries
      = updE s.entries eid (fun e => { e with value := v }) from rfl, updE_other _ _ _ _ hie]
    exact ⟨rfl, rfl⟩
  rw [habs₁, habs₂]
  congr 1
  show [((updE s.entries eid (fun e => { e with value := v }) eid).key,
    (updE s.entries eid (fun e => { e with value := v }) eid).value)] = [(k, v)]
  rw [updE_self, show ((fun e => ({ e with value := v } : Entry)) (s.entries eid)).key
    = (s.entries eid).key from rfl, hkeid]

theorem get_miss_spec {s : Cache} {k : Nat} (hstore : s.store k = none) :
    s.get k = (none, s) := by
  simp [Cache.get, Cache._getEntry, hstore]

theorem get_hit_spec {s : Cache} {l₁ l₂ : List Nat} {eid k : Nat}
    (h : WF s (l₁ ++ eid :: l₂)) (hstore : s.store k = some eid) :
    (s.get k).1 = (s.entries eid).value ∧
    WF (s.get k).2 (l₁ ++ l₂ ++ [eid]) ∧
    absList (s.get k).2 (l₁ ++ l₂ ++ [eid]) =
      absList s l₁ ++ absList s l₂ ++ [((s.entries eid).key, (s.entries eid).value)] ∧
    (s.get k).2.size = s.size ∧
    (s.get k).2.cacheLimit = s.cacheLimit ∧
    (s.get k).2.store = s.store ∧
    (s.get k).2.nextId = s.nextId := by
  have hget : s.get k = (((s._moveToFront eid).entries eid).value, s._moveToFront eid) := by
    simp [Cache.get, Cache._getEntry, hstore]
  obtain ⟨hmst, hmsz, hmcap, hmnid, hmkv⟩ := mtf_frame s eid
  rw [hget]
  refine ⟨(hmkv eid).2, mtf_wf h, ?_, by rw [hmsz], by rw [hmcap], by rw [hmst], by rw [hmnid]⟩
  rw [absList_congr (fun i _ => hmkv i), absList_append, absList_append]
  rfl

theorem set_miss_spec {s : Cache} {k : Nat} {v : Val} (hstore : s.store k = none) :
    s.set k v = (none, s) := by
  simp [Cache.set, Cache._getEntry, hstore]

theorem set_hit_spec {s : Cache} {l₁ l₂ : List Nat} {eid k : Nat} {v : Val}
    (h : WF s (l₁ ++ eid :: l₂)) (hstore : s.store k = some eid) :
    (s.set k v).1 = (s.entries eid).value ∧
    WF (s.set k v).2 (l₁ ++ l₂ ++ [eid]) ∧
    absList (s.set k v).2 (l₁ ++ l₂ ++ [eid]) =
      absList s l₁ ++ absList s l₂ ++ [(k, v)] ∧
    (s.set k v).2.size = s.size ∧
    (s.set k v).2.cacheLimit = s.cacheLimit ∧
    (s.set k v).2.store = s.store ∧
    (s.set k v).2.nextId = s.nextId := by
  obtain ⟨hn₁, hn₂, ha₁, ha₂, hdisj⟩ := nodup_split h.nodup
  have hkeid : (s.entries eid).key = k := (h.store_sound k eid hstore).2
  have hset : s.set k v = (((s._moveToFront eid).entries eid).value,
      { s._moveToFront eid with
        entries := updE (s._moveToFront eid).entries eid (fun e => { e with value := v }) }) := by
    simp [Cache.set, Cache._getEntry, hstore]
  obtain ⟨hmst, hmsz, hmcap, hmnid, hmkv⟩ := mtf_frame s eid
  rw [hset]
  have hwf2 := wf_value_update (mtf_wf h) eid v
  refine ⟨(hmkv eid).2, hwf2, ?_, by rw [hmsz], by rw [hmcap], by rw [hmst], by rw [hmnid]⟩
  have hmemE : eid ∉ l₁ ++ l₂ := by
    rw [List.mem_append]
    rintro (hm | hm)
    exacts [ha₁ hm, ha₂ hm]
  have habs : ∀ m : List Nat, eid ∉ m →
      absList { s._moveToFront eid with
        entries := updE (s._moveToFront eid).entries eid (fun e => { e with value := v }) } m
      = absList s m := by
    intro m hm
    refine absList_congr ?_
    intro i hi
    have hie : i ≠ eid := fun hEq => hm (hEq ▸ hi)
    rw [show ({ s._moveToFront eid with
        entries := updE (s._moveToFront eid).entries eid (fun e => { e with value := v }) } : Cache).entries
      = updE (s._moveToFront eid).entries eid (fun e => { e with value := v }) from rfl,
      updE_other _ _ _ _ hie]
    exact hmkv i
  rw [absList_append, absList_append,
    habs l₁ (fun hm => hmemE (List.mem_append_left _ hm)),
    habs l₂ (fun hm => hmemE (List.mem_append_right _ hm))]
  congr 1
  show [((updE (s._moveToFront eid).entries eid (fun e => { e with value := v }) eid).key,
    (updE (s._moveToFront eid).entries eid (fun e => { e with value := v }) eid).value)] = [(k, v)]
  rw [updE_self]
  have : ((s._moveToFront eid).entries eid).key = k := (hmkv eid).1.trans hkeid
  rw [show ((fun e => ({ e with value := v } : Entry)) ((s._moveToFront eid).entries eid)).key
    = ((s._moveToFront eid).entries eid).key from rfl, this]

theorem mem_splice {l₁ l₂ : List Nat} {a : Nat} (ha₁ : a ∉ l₁) (ha₂ : a ∉ l₂) (i : Nat) :
    i ∈ l₁ ++ l₂ ↔ i ∈ l₁ ++ a :: l₂ ∧ i ≠ a := by
  simp only [List.mem_append, List.mem_cons]
  constructor
  · rintro (h | h)
    · exact ⟨Or.inl h, fun hEq => ha₁ (hEq ▸ h)⟩
    · exact ⟨Or.inr (Or.inr h), fun hEq => ha₂ (hEq ▸ h)⟩
  · rintro ⟨h | h | h, hne⟩
    · exact Or.inl h
    · exact absurd h hne
    · exact Or.inr h

/-- Index transfer when one key is deleted from the store and its entry
dropped from the chain. -/
theorem wf_delete_transfer {s F : Cache} {l L : List Nat} {eid k : Nat}
    (h : WF s l) (heid : eid ∈ l) (hkeid : (s.entries eid).key = k)
    (hstoreF : F.store = updS s.store k none)
    (hkey : ∀ i, (F.entries i).key = (s.entries i).key)
    (hmem : ∀ i, i ∈ L ↔ i ∈ l ∧ i ≠ eid) :
    (∀ q i, F.store q = some i → i ∈ L ∧ (F.entries i).key = q) ∧
    (∀ q, F.store q = none → ∀ a ∈ L, (F.entries a).key ≠ q) ∧
    (∀ a ∈ L, F.store ((F.entries a).key) = some a) := by
  have hsk : s.store k = some eid := hkeid ▸ h.store_complete eid heid
  have huniq : ∀ a ∈ l, (s.entries a).key = k → a = eid := by
    intro a ha hk2
    have hc := h.store_complete a ha
    rw [hk2, hsk] at hc
    exact (Option.some.inj hc).symm
  refine ⟨?_, ?_, ?_⟩
  · intro q i hq
    rw [hstoreF] at hq
    by_cases hqk : q = k
    · subst hqk; rw [updS_self] at hq; cases hq
    · rw [updS_other _ _ _ _ hqk] at hq
      obtain ⟨hm, hk2⟩ := h.store_sound q i hq
      refine ⟨(hmem i).mpr ⟨hm, ?_⟩, (hkey i).trans hk2⟩
      intro hEq
      subst hEq
      exact hqk (hk2.symm.trans hkeid)
  · intro q hq a ha
    rw [hstoreF] at hq
    obtain ⟨hal, hane⟩ := (hmem a).mp ha
    rw [hkey a]
    by_cases hqk : q = k
    · subst hqk
      intro hk2
      exact hane (huniq a hal hk2)
    · rw [updS_other _ _ _ _ hqk] at hq
      exact h.store_none q hq a hal
  · intro a ha
    obtain ⟨hal, hane⟩ := (hmem a).mp ha
    rw [hstoreF, hkey a]
    have hk2 : (s.entries a).key ≠ k := fun hEq => hane (huniq a hal hEq)
    rw [updS_other _ _ _ _ hk2]
    exact h.store_complete a hal

theorem remove_hit_spec {s : Cache} {l₁ l₂ : List Nat} {eid k : Nat}
    (h : WF s (l₁ ++ eid :: l₂)) (hstore : s.store k = some eid) :
    (s.remove k).1 = (s.entries eid).value ∧
    WF (s.remove k).2 (l₁ ++ l₂) ∧
    absList (s.remove k).2 (l₁ ++ l₂) = absList s l₁ ++ absList s l₂ ∧
    (s.remove k).2.size = s.size - 1 ∧
    (s.remove k).2.cacheLimit = s.cacheLimit ∧
    (s.remove k).2.store k = none ∧
    (s.remove k).2.nextId = s.nextId := by
  obtain ⟨hA, hBp, hBn, hB2, hLast, hFst⟩ := wf_decomp h
  obtain ⟨hn₁, hn₂, ha₁, ha₂, hdisj⟩ := nodup_split h.nodup
  have hkeid : (s.entries eid).key = k := (h.store_sound k eid hstore).2
  have heid : eid ∈ l₁ ++ eid :: l₂ := (h.store_sound k eid hstore).1
  have hmem := fun i => mem_splice ha₁ ha₂ i
  have hlen : (s.size - 1) = ((l₁ ++ l₂).length : Int) := by
    rw [h.size_eq]
    simp only [List.length_append, List.length_cons]
    push_cast
    ring
  cases l₂ with
  | nil =>
    cases l₁ with
    | nil =>
        have hnext : (s.entries eid).next = none := hBn
        have hprev : (s.entries eid).prev = none := hBp
        rw [remove_desc_single hstore hnext hprev]
        obtain ⟨hss, hsn, hsc⟩ := wf_delete_transfer
          (F := { s with
                  store := updS s.store ((s.entries eid).key) none,
                  last := none, first := none, size := s.size - 1 })
          h heid hkeid (by rw [hkeid]) (fun i => rfl) hmem
        exact ⟨rfl, ⟨trivial, rfl, rfl, List.nodup_nil, hss, hsn, hsc, hlen, fun a ha => absurd ha (by simp)⟩,
          rfl, rfl, rfl, by show updS s.store ((s.entries eid).key) none k = none; rw [hkeid, updS_self], rfl⟩
    | cons p t₁ =>
        obtain ⟨pl, hpl⟩ := getLast?_some_of_ne_nil (l := p :: t₁) (by simp)
        have hplmem : pl ∈ p :: t₁ := mem_of_getLast?' hpl
        have hepl : eid ≠ pl := fun hEq => ha₁ (hEq ▸ hplmem)
        have hnext : (s.entries eid).next = none := hBn
        have hprev : (s.entries eid).prev = some pl := by rw [hBp, hpl]
        rw [remove_desc_head hstore hnext hprev hepl]
        have hkey : ∀ i, ((updE s.entries pl (fun e => { e with next := none })) i).key
            = (s.entries i).key := by
          intro i
          simp only [updE]
          split_ifs <;> subst_vars <;> rfl
        have hkv : ∀ i, ((updE s.entries pl (fun e => { e with next := none })) i).key
            = (s.entries i).key ∧
            ((updE s.entries pl (fun e => { e with next := none })) i).value
            = (s.entries i).value := by
          intro i
          simp only [updE]
          split_ifs <;> subst_vars <;> exact ⟨rfl, rfl⟩
        obtain ⟨hss, hsn, hsc⟩ := wf_delete_transfer
          (F := { s with
                  store := updS s.store ((s.entries eid).key) none,
                  entries := updE s.entries pl (fun e => { e with next := none }),
                  first := some pl, size := s.size - 1 })
          h heid hkeid (by rw [hkeid]) hkey hmem
        have hdl₁ : (p :: t₁).dropLast ++ [pl] = p :: t₁ :=
          List.dropLast_append_getLast? pl (by rw [Option.mem_def]; exact hpl)
        have hpldl : pl ∉ (p :: t₁).dropLast := by
          have hnd := hn₁
          rw [← hdl₁, List.nodup_append] at hnd
          exact fun hm => hnd.2.2 hm (by simp)
        have hchain : segOk (updE s.entries pl (fun e => { e with next := none }))
            none (p :: t₁) none := by
          rw [← hdl₁]
          refine segOk_retarget _ pl ?_ ?_ ?_ (by rw [hdl₁]; exact hA)
          · intro i hi
            exact updE_other _ _ _ _ (fun hEq => hpldl (hEq ▸ hi))
          · rw [updE_self]
          · rw [updE_self]
        refine ⟨rfl, ?_, ?_, rfl, rfl,
          by show updS s.store ((s.entries eid).key) none k = none; rw [hkeid, updS_self], rfl⟩
        · refine ⟨by simpa using hchain, ?_, ?_, by simpa using hn₁, hss, hsn, hsc, hlen, ?_⟩
          · show s.last = ((p :: t₁) ++ []).head?
            rw [hLast]
            rfl
          · show some pl = ((p :: t₁) ++ []).getLast?
            rw [List.append_nil, hpl]
          · intro a ha
            exact h.fresh a ((hmem a).mp ha).1
        · rw [List.append_nil, absList_nil, List.append_nil]
          exact absList_congr (fun i _ => hkv i)
  | cons b t =>
    have hen : eid ≠ b := fun hEq => ha₂ (hEq ▸ List.mem_cons_self b t)
    have hnext : (s.entries eid).next = some b := hBn
    cases l₁ with
    | nil =>
        have hprev : (s.entries eid).prev = none := hBp
        rw [remove_desc_tail hstore hnext hprev hen]
        have hkey : ∀ i, ((updE s.entries b (fun e => { e with prev := none })) i).key
            = (s.entries i).key := by
          intro i
          simp only [updE]
          split_ifs <;> subst_vars <;> rfl
        have hkv : ∀ i, ((updE s.entries b (fun e => { e with prev := none })) i).key
            = (s.entries i).key ∧
            ((updE s.entries b (fun e => { e with prev := none })) i).value
            = (s.entries i).value := by
          intro i
          simp only [updE]
          split_ifs <;> subst_vars <;> exact ⟨rfl, rfl⟩
        obtain ⟨hss, hsn, hsc⟩ := wf_delete_transfer
          (F := { s with
                  store := updS s.store ((s.entries eid).key) none,
                  entries := updE s.entries b (fun e => { e with prev := none }),
                  last := some b, size := s.size - 1 })
          h heid hkeid (by rw [hkeid]) hkey hmem
        have hbt : b ∉ t := (List.nodup_cons.mp hn₂).1
        have hchain : segOk (updE s.entries b (fun e => { e with prev := none }))
            none (b :: t) none := by
          refine segOk_rehead ?_ ?_ ?_ hB2
          · intro i hi
            exact updE_other _ _ _ _ (fun hEq => hbt (hEq ▸ hi))
          · rw [updE_self]
          · rw [updE_self]
        obtain ⟨f, hf⟩ := getLast?_some_of_ne_nil (l := b :: t) (by simp)
        refine ⟨rfl, ?_, ?_, rfl, rfl,
          by show updS s.store ((s.entries eid).key) none k = none; rw [hkeid, updS_self], rfl⟩
        · refine ⟨by simpa using hchain, rfl, ?_, by simpa using hn₂, hss, hsn, hsc, ?_, ?_⟩
          · show s.first = ([] ++ b :: t).getLast?
            rw [hFst, hf]
            simp only [List.nil_append]
            rw [hf]
            rfl
          · simpa using hlen
          · intro a ha
            exact h.fresh a ((hmem a).mp ha).1
        · simp only [List.nil_append, absList_nil]
          exact absList_congr (fun i _ => hkv i)
    | cons p t₁ =>
        obtain ⟨pl, hpl⟩ := getLast?_some_of_ne_nil (l := p :: t₁) (by simp)
        have hplmem : pl ∈ p :: t₁ := mem_of_getLast?' hpl
        have hepl : eid ≠ pl := fun hEq => ha₁ (hEq ▸ hplmem)
        have hprev : (s.entries eid).prev = some pl := by rw [hBp, hpl]
        rw [remove_desc_mid hstore hnext hprev hepl hen]
        set E1 := updE s.entries pl (fun e => { e with next := some b }) with hE1
        set E2 := updE E1 b (fun e => { e with prev := some pl }) with hE2
        have hplb : pl ≠ b := fun hEq => hdisj pl hplmem (hEq ▸ List.mem_cons_self b t)
        have hkey : ∀ i, (E2 i).key = (s.entries i).key := by
          intro i
          rw [hE2, hE1]
          simp only [updE]
          split_ifs <;> subst_vars <;> rfl
        have hkv : ∀ i, (E2 i).key = (s.entries i).key ∧ (E2 i).value = (s.entries i).value := by
          intro i
          rw [hE2, hE1]
          simp only [updE]
          split_ifs <;> subst_vars <;> exact ⟨rfl, rfl⟩
        obtain ⟨hss, hsn, hsc⟩ := wf_delete_transfer
          (F := { s with
                  store := updS s.store ((s.entries eid).key) none,
                  entries := E2, size := s.size - 1 })
          h heid hkeid (by rw [hkeid]) hkey hmem
        have hbt : b ∉ t := (List.nodup_cons.mp hn₂).1
        have hdl₁ : (p :: t₁).dropLast ++ [pl] = p :: t₁ :=
          List.dropLast_append_getLast? pl (by rw [Option.mem_def]; exact hpl)
        have hpldl : pl ∉ (p :: t₁).dropLast := by
          have hnd := hn₁
          rw [← hdl₁, List.nodup_append] at hnd
          exact fun hm => hnd.2.2 hm (by simp)
        have hEpl : E2 pl = { s.entries pl with next := some b } := by
          rw [hE2, updE_other _ _ _ _ hplb, hE1, updE_self]
        have hEb : E2 b = { s.entries b with prev := some pl } := by
          rw [hE2, updE_self, hE1, updE_other _ _ _ _ (Ne.symm hplb)]
        have hchain : segOk E2 none ((p :: t₁) ++ (b :: t)) none := by
          rw [segOk_append]
          constructor
          · rw [← hdl₁]
            refine segOk_retarget _ pl ?_ ?_ ?_ (by rw [hdl₁]; exact hA)
            · intro i hi
              have him : i ∈ p :: t₁ := by rw [← hdl₁]; exact List.mem_append_left _ hi
              have hipl : i ≠ pl := fun hEq => hpldl (hEq ▸ hi)
              have hib : i ≠ b := fun hEq => hdisj b (hEq ▸ him) (List.mem_cons_self b t)
              rw [hE2, updE_other _ _ _ _ hib, hE1, updE_other _ _ _ _ hipl]
            · rw [hEpl]
            · rw [hEpl]
              show some b = oor (b :: t).head? none
              rfl
          · rw [oor_none_right, hpl]
            refine segOk_rehead ?_ ?_ ?_ hB2
            · intro i hi
              have hib : i ≠ b := fun hEq => hbt (hEq ▸ hi)
              have hipl : i ≠ pl := fun hEq =>
                hdisj pl hplmem (hEq ▸ List.mem_cons_of_mem b hi)
              rw [hE2, updE_other _ _ _ _ hib, hE1, updE_other _ _ _ _ hipl]
            · rw [hEb]
            · rw [hEb]
        obtain ⟨f, hf⟩ := getLast?_some_of_ne_nil (l := b :: t) (by simp)
        refine ⟨rfl, ?_, ?_, rfl, rfl,
          by show updS s.store ((s.entries eid).key) none k = none; rw [hkeid, updS_self], rfl⟩
        · refine ⟨hchain, ?_, ?_, ?_, hss, hsn, hsc, hlen, ?_⟩
          · show s.last = ((p :: t₁) ++ b :: t).head?
            rw [hLast]
            rfl
          · show s.first = ((p :: t₁) ++ b :: t).getLast?
            rw [hFst, hf, getLast?_app, hf]
            rfl
          · refine List.Nodup.append hn₁ hn₂ ?_
            intro x hx hx2
            exact hdisj x hx hx2
          · intro a ha
            exact h.fresh a ((hmem a).mp ha).1
        · rw [absList_append]
          congr 1
          · exact absList_congr (fun i _ => hkv i)
          · exact absList_congr (fun i _ => hkv i)

theorem purge_empty_spec {s : Cache} (h : WF s []) : s.purge = (none, s) :=
  purge_empty h.last_eq

theorem purge_cons_spec {s : Cache} {a : Nat} {l : List Nat} (h : WF s (a :: l)) :
    s.purge.1 = some ⟨(s.entries a).key, (s.entries a).value, none, none⟩ ∧
    WF s.purge.2 l ∧
    absList s.purge.2 l = absList s l ∧
    s.purge.2.size = s.size - 1 ∧
    s.purge.2.cacheLimit = s.cacheLimit ∧
    s.purge.2.store ((s.entries a).key) = none ∧
    s.purge.2.nextId = s.nextId := by
  have hlast : s.last = some a := h.last_eq
  have hal : a ∉ l := (List.nodup_cons.mp h.nodup).1
  have heid : a ∈ a :: l := List.mem_cons_self a l
  have hmem : ∀ i, i ∈ l ↔ i ∈ a :: l ∧ i ≠ a := by
    intro i
    constructor
    · intro hi
      exact ⟨List.mem_cons_of_mem _ hi, fun hEq => hal (hEq ▸ hi)⟩
    · rintro ⟨hi, hne⟩
      rcases List.mem_cons.mp hi with hEq | hi'
      exacts [absurd hEq hne, hi']
  have hlen : s.size - 1 = (l.length : Int) := by
    rw [h.size_eq]
    simp only [List.length_cons]
    push_cast
    ring
  cases l with
  | nil =>
      have hnext : (s.entries a).next = none := by
        have hc := h.chain.2.1
        simpa using hc
      rw [purge_desc₁ hlast hnext]
      have hkey : ∀ i, ((updE s.entries a (fun e => { e with next := none, prev := none })) i).key
          = (s.entries i).key := by
        intro i
        simp only [updE]
        split_ifs <;> subst_vars <;> rfl
      obtain ⟨hss, hsn, hsc⟩ := wf_delete_transfer
        (F := { s with
                last := none, first := none,
                entries := updE s.entries a (fun e => { e with next := none, prev := none }),
                store := updS s.store ((s.entries a).key) none,
                size := s.size - 1 })
        h heid rfl rfl hkey hmem
      exact ⟨rfl,
        ⟨trivial, rfl, rfl, List.nodup_nil, hss, hsn, hsc, hlen, fun i hi => absurd hi (by simp)⟩,
        rfl, rfl, rfl, by show updS s.store ((s.entries a).key) none ((s.entries a).key) = none; rw [updS_self], rfl⟩
  | cons b t =>
      have hab : a ≠ b := fun hEq => hal (hEq ▸ List.mem_cons_self b t)
      have hnext : (s.entries a).next = some b := by
        have hc := h.chain.2.1
        simpa using hc
      have hbt : b ∉ t := (List.nodup_cons.mp (List.nodup_cons.mp h.nodup).2).1
      rw [purge_desc₂ hlast hnext hab]
      set E1 := updE s.entries b (fun e => { e with prev := none }) with hE1
      set E2 := updE E1 a (fun e => { e with next := none, prev := none }) with hE2
      have hkey : ∀ i, (E2 i).key = (s.entries i).key := by
        intro i
        rw [hE2, hE1]
        simp only [updE]
        split_ifs <;> subst_vars <;> rfl
      have hkv : ∀ i, (E2 i).key = (s.entries i).key ∧ (E2 i).value = (s.entries i).value := by
        intro i
        rw [hE2, hE1]
        simp only [updE]
        split_ifs <;> subst_vars <;> exact ⟨rfl, rfl⟩
      obtain ⟨hss, hsn, hsc⟩ := wf_delete_transfer
        (F := { s with
                last := some b, entries := E2,
                store := updS s.store ((s.entries a).key) none,
                size := s.size - 1 })
        h heid rfl rfl hkey hmem
      have hEb : E2 b = { s.entries b with prev := none } := by
        rw [hE2, updE_other _ _ _ _ (Ne.symm hab), hE1, updE_self]
      have hchain : segOk E2 none (b :: t) none := by
        refine segOk_rehead ?_ ?_ ?_ h.chain.2.2
        · intro i hi
          have hib : i ≠ b := fun hEq => hbt (hEq ▸ hi)
          have hia : i ≠ a := fun hEq => hal (hEq ▸ List.mem_cons_of_mem b hi)
          rw [hE2, updE_other _ _ _ _ hia, hE1, updE_other _ _ _ _ hib]
        · rw [hEb]
        · rw [hEb]
      refine ⟨rfl, ?_, ?_, rfl, rfl,
        by show updS s.store ((s.entries a).key) none ((s.entries a).key) = none; rw [updS_self], rfl⟩
      · refine ⟨hchain, rfl, ?_, (List.nodup_cons.mp h.nodup).2, hss, hsn, hsc, hlen, ?_⟩
        · show s.first = (b :: t).getLast?
          rw [h.first_eq, List.getLast?_cons_cons]
        · intro i hi
          exact h.fresh i ((hmem i).mp hi).1
      · exact absList_congr (fun i _ => hkv i)

/-- The state of `put` on a fresh key just before the capacity check. -/
theorem put_new_spec {s : Cache} {l : List Nat} {k : Nat} {v : Val}
    (h : WF s l) (hstore : s.store k = none) :
    ∃ S : Cache,
      s.put k v = (if S.size > S.cacheLimit then S.purge else (none, S)) ∧
      WF S (l ++ [s.nextId]) ∧
      absList S (l ++ [s.nextId]) = absList s l ++ [(k, v)] ∧
      S.size = s.size + 1 ∧ S.cacheLimit = s.cacheLimit ∧ S.nextId = s.nextId + 1 ∧
      (∀ i, i ≠ s.nextId → (S.entries i).key = (s.entries i).key ∧
        (S.entries i).value = (s.entries i).value) := by
  have hfreshn : ∀ i ∈ l, i ≠ s.nextId := by
    intro i hi hEq
    exact absurd (hEq ▸ h.fresh i hi) (lt_irrefl _)
  have hnotin : s.nextId ∉ l := fun hm => hfreshn _ hm rfl
  have hsound := fun q i hq => h.store_sound q i hq
  cases l with
  | nil =>
      have hfst : s.first = none := h.first_eq
      refine ⟨{ s with
                store := updS s.store k (some s.nextId),
                entries := updE s.entries s.nextId (fun _ => ⟨k, v, none, none⟩),
                nextId := s.nextId + 1,
                last := some s.nextId,
                first := some s.nextId,
                size := s.size + 1 }, ?_, ?_, ?_, rfl, rfl, rfl, ?_⟩
      · rw [put_new_desc₁ hstore hfst]
      · refine ⟨?_, rfl, rfl, by simp, ?_, ?_, ?_, ?_, ?_⟩
        · refine segOk_singleton.mpr ⟨?_, ?_⟩ <;> simp [updE]
        · intro q i hq
          by_cases hqk : q = k
          · rw [show ({ s with
                store := updS s.store k (some s.nextId),
                entries := updE s.entries s.nextId (fun _ => ⟨k, v, none, none⟩),
                nextId := s.nextId + 1, last := some s.nextId, first := some s.nextId,
                size := s.size + 1 } : Cache).store = updS s.store k (some s.nextId) from rfl,
              hqk, updS_self] at hq
            cases hq
            exact ⟨by simp, by simp [updE, hqk]⟩
          · rw [show ({ s with
                store := updS s.store k (some s.nextId),
                entries := updE s.entries s.nextId (fun _ => ⟨k, v, none, none⟩),
                nextId := s.nextId + 1, last := some s.nextId, first := some s.nextId,
                size := s.size + 1 } : Cache).store = updS s.store k (some s.nextId) from rfl,
              updS_other _ _ _ _ hqk] at hq
            exact absurd (h.store_sound q i hq).1 (List.not_mem_nil i)
        · intro q hq i hi
          rcases List.mem_singleton.mp hi with rfl
          rw [show ({ s with
                store := updS s.store k (some s.nextId),
                entries := updE s.entries s.nextId (fun _ => ⟨k, v, none, none⟩),
                nextId := s.nextId + 1, last := some s.nextId, first := some s.nextId,
                size := s.size + 1 } : Cache).store = updS s.store k (some s.nextId) from rfl] at hq
          by_cases hqk : q = k
          · rw [hqk, updS_self] at hq; cases hq
          · show (updE s.entries s.nextId (fun _ => (⟨k, v, none, none⟩ : Entry)) s.nextId).key ≠ q
            rw [updE_self]
            exact fun hEq => hqk hEq.symm
        · intro i hi
          rcases List.mem_singleton.mp hi with rfl
          show updS s.store k (some s.nextId)
            ((updE s.entries s.nextId (fun _ => (⟨k, v, none, none⟩ : Entry)) s.nextId).key)
            = some s.nextId
          rw [updE_self]
          show updS s.store k (some s.nextId) k = some s.nextId
          rw [updS_self]
        · show s.size + 1 = _
          rw [h.size_eq]
          simp
        · intro i hi
          rcases List.mem_singleton.mp hi with rfl
          exact Nat.lt_succ_self _
      · show absList _ [s.nextId] = absList s [] ++ [(k, v)]
        simp [absList, updE]
      · intro i hi
        show (updE s.entries s.nextId (fun _ => (⟨k, v, none, none⟩ : Entry)) i).key
            = (s.entries i).key ∧
          (updE s.entries s.nextId (fun _ => (⟨k, v, none, none⟩ : Entry)) i).value
            = (s.entries i).value
        rw [updE_other _ _ _ _ hi]
        exact ⟨rfl, rfl⟩
  | cons a t =>
      obtain ⟨f, hf⟩ := getLast?_some_of_ne_nil (l := a :: t) (by simp)
      have hfst : s.first = some f := by rw [h.first_eq, hf]
      have hfmem : f ∈ a :: t := mem_of_getLast?' hf
      have hfn : f ≠ s.nextId := hfreshn f hfmem
      refine ⟨{ s with
                store := updS s.store k (some s.nextId),
                entries := updE (updE (updE s.entries s.nextId (fun _ => ⟨k, v, none, none⟩))
                  f (fun e => { e with next := some s.nextId }))
                  s.nextId (fun e => { e with prev := some f }),
                nextId := s.nextId + 1,
                first := some s.nextId,
                size := s.size + 1 }, ?_, ?_, ?_, rfl, rfl, rfl, ?_⟩
      all_goals
        set E1 := updE s.entries s.nextId (fun _ => ⟨k, v, none, none⟩) with hE1
        set E2 := updE E1 f (fun e => { e with next := some s.nextId }) with hE2
        set E3 := updE E2 s.nextId (fun e => { e with prev := some f }) with hE3
      · rw [put_new_desc₂ hstore hfst]
      · have hkeyE : ∀ i, i ≠ s.nextId → (E3 i).key = (s.entries i).key ∧
            (E3 i).value = (s.entries i).value := by
          intro i hi
          rw [hE3, updE_other _ _ _ _ hi, hE2, hE1]
          simp only [updE]
          split_ifs <;> subst_vars <;> exact ⟨rfl, rfl⟩
        have hEn : E3 s.nextId = ⟨k, v, some f, none⟩ := by
          rw [hE3, updE_self, hE2, updE_other _ _ _ _ (Ne.symm hfn), hE1, updE_self]
        have hEf : E3 f = { s.entries f with next := some s.nextId } := by
          rw [hE3, updE_other _ _ _ _ hfn, hE2, updE_self, hE1, updE_other _ _ _ _ hfn]
        have hdl : (a :: t).dropLast ++ [f] = a :: t :=
          List.dropLast_append_getLast? f (by rw [Option.mem_def]; exact hf)
        have hfdl : f ∉ (a :: t).dropLast := by
          have hnd := h.nodup
          rw [← hdl, List.nodup_append] at hnd
          exact fun hm => hnd.2.2 hm (by simp)
        have hchain : segOk E3 none ((a :: t) ++ [s.nextId]) none := by
          rw [segOk_append]
          constructor
          · show segOk E3 none (a :: t) (oor (some s.nextId) none)
            rw [← hdl]
            refine segOk_retarget _ f ?_ ?_ ?_ (by rw [hdl]; exact h.chain)
            · intro i hi
              have him : i ∈ a :: t := by rw [← hdl]; exact List.mem_append_left _ hi
              have hif : i ≠ f := fun hEq => hfdl (hEq ▸ hi)
              rw [hE3, updE_other _ _ _ _ (hfreshn i him), hE2, updE_other _ _ _ _ hif,
                hE1, updE_other _ _ _ _ (hfreshn i him)]
            · rw [hEf]
            · rw [hEf]
              rfl
          · rw [oor_none_right, hf]
            refine segOk_singleton.mpr ⟨?_, ?_⟩ <;> rw [hEn]
        refine ⟨hchain, ?_, (List.getLast?_concat _).symm, ?_, ?_, ?_, ?_, ?_, ?_⟩
        · show s.last = ((a :: t) ++ [s.nextId]).head?
          rw [h.last_eq]
          rfl
        · refine List.Nodup.append h.nodup (by simp) ?_
          intro x hx hx2
          rcases List.mem_singleton.mp hx2 with rfl
          exact hnotin hx
        · intro q i hq
          show _ ∧ (E3 i).key = q
          rw [show ({ s with
                store := updS s.store k (some s.nextId), entries := E3,
                nextId := s.nextId + 1, first := some s.nextId,
                size := s.size + 1 } : Cache).store = updS s.store k (some s.nextId) from rfl] at hq
          by_cases hqk : q = k
          · subst hqk
            rw [updS_self] at hq
            cases hq
            exact ⟨by simp, by rw [hEn]⟩
          · rw [updS_other _ _ _ _ hqk] at hq
            obtain ⟨hm, hk2⟩ := h.store_sound q i hq
            exact ⟨List.mem_append_left _ hm, (hkeyE i (hfreshn i hm)).1.trans hk2⟩
        · intro q hq i hi
          rw [show ({ s with
                store := updS s.store k (some s.nextId), entries := E3,
                nextId := s.nextId + 1, first := some s.nextId,
                size := s.size + 1 } : Cache).store = updS s.store k (some s.nextId) from rfl] at hq
          by_cases hqk : q = k
          · subst hqk; rw [updS_self] at hq; cases hq
          · rw [updS_other _ _ _ _ hqk] at hq
            rcases List.mem_append.mp hi with hm | hm
            · show (E3 i).key ≠ q
              rw [(hkeyE i (hfreshn i hm)).1]
              exact h.store_none q hq i hm
            · rcases List.mem_singleton.mp hm with rfl
              show (E3 s.nextId).key ≠ q
              rw [hEn]
              exact fun hEq => hqk hEq.symm
        · intro i hi
          rcases List.mem_append.mp hi with hm | hm
          · show updS s.store k (some s.nextId) ((E3 i).key) = some i
            rw [(hkeyE i (hfreshn i hm)).1]
            have hk2 : (s.entries i).key ≠ k := h.store_none k hstore i hm
            rw [updS_other _ _ _ _ hk2]
            exact h.store_complete i hm
          · rcases List.mem_singleton.mp hm with rfl
            show updS s.store k (some s.nextId) ((E3 s.nextId).key) = some s.nextId
            rw [hEn]
            show updS s.store k (some s.nextId) k = some s.nextId
            rw [updS_self]
        · show s.size + 1 = _
          rw [h.size_eq]
          simp only [List.length_append, List.length_cons, List.length_nil]
          push_cast
          ring
        · intro i hi
          rcases List.mem_append.mp hi with hm | hm
          · exact Nat.lt_succ_of_lt (h.fresh i hm)
          · rcases List.mem_singleton.mp hm with rfl
            exact Nat.lt_succ_self _
      · have hkeyE : ∀ i, i ≠ s.nextId → (E3 i).key = (s.entries i).key ∧
            (E3 i).value = (s.entries i).value := by
          intro i hi
          rw [hE3, updE_other _ _ _ _ hi, hE2, hE1]
          simp only [updE]
          split_ifs <;> subst_vars <;> exact ⟨rfl, rfl⟩
        have hEn : E3 s.nextId = ⟨k, v, some f, none⟩ := by
          rw [hE3, updE_self, hE2, updE_other _ _ _ _ (Ne.symm hfn), hE1, updE_self]
        rw [absList_append]
        congr 1
        · exact absList_congr (fun i hi => hkeyE i (hfreshn i hi))
        · show [((E3 s.nextId).key, (E3 s.nextId).value)] = [(k, v)]
          rw [hEn]
      · intro i hi
        rw [show ({ s with
              store := updS s.store k (some s.nextId), entries := E3,
              nextId := s.nextId + 1, first := some s.nextId,
              size := s.size + 1 } : Cache).entries = E3 from rfl,
          hE3, updE_other _ _ _ _ hi, hE2, hE1]
        simp only [updE]
        split_ifs <;> subst_vars <;> exact ⟨rfl, rfl⟩

theorem absList_cons (s : Cache) (a : Nat) (m : List Nat) :
    absList s (a :: m) = ((s.entries a).key, (s.entries a).value) :: absList s m := rfl

theorem put_new_noevict {s : Cache} {l : List Nat} {k : Nat} {v : Val}
    (h : WF s l) (hstore : s.store k = none) (hsz : ¬ s.size + 1 > s.cacheLimit) :
    (s.put k v).1 = none ∧
    WF (s.put k v).2 (l ++ [s.nextId]) ∧
    absList (s.put k v).2 (l ++ [s.nextId]) = absList s l ++ [(k, v)] ∧
    (s.put k v).2.size = s.size + 1 ∧
    (s.put k v).2.cacheLimit = s.cacheLimit := by
  obtain ⟨S, hEq, hwf, habs, hsz', hcap, hnid, hkv⟩ := put_new_spec h hstore
  rw [hEq, if_neg (by rw [hsz', hcap]; exact hsz)]
  exact ⟨rfl, hwf, habs, hsz', hcap⟩

theorem put_new_evict_cons {s : Cache} {a : Nat} {t : List Nat} {k : Nat} {v : Val}
    (h : WF s (a :: t)) (hstore : s.store k = none) (hsz : s.size + 1 > s.cacheLimit) :
    (s.put k v).1 = some ⟨(s.entries a).key, (s.entries a).value, none, none⟩ ∧
    WF (s.put k v).2 (t ++ [s.nextId]) ∧
    absList (s.put k v).2 (t ++ [s.nextId]) = absList s t ++ [(k, v)] ∧
    (s.put k v).2.size = s.size ∧
    (s.put k v).2.cacheLimit = s.cacheLimit ∧
    (s.put k v).2.store ((s.entries a).key) = none := by
  obtain ⟨S, hEq, hwf, habs, hsz', hcap, hnid, hkv⟩ := put_new_spec h hstore
  rw [hEq, if_pos (by rw [hsz', hcap]; exact hsz)]
  have hwf2 : WF S (a :: (t ++ [s.nextId])) := by rw [List.cons_append] at hwf; exact hwf
  obtain ⟨hres, hwfp, habsp, hszp, hcapp, hstp, hnidp⟩ := purge_cons_spec hwf2
  have han : a ≠ s.nextId := by
    intro hEq2
    exact absurd (hEq2 ▸ h.fresh a (List.mem_cons_self a t)) (lt_irrefl _)
  obtain ⟨hka, hva⟩ := hkv a han
  have htail : absList S (t ++ [s.nextId]) = absList s t ++ [(k, v)] := by
    have hx : absList S ((a :: t) ++ [s.nextId]) = absList s (a :: t) ++ [(k, v)] := habs
    rw [List.cons_append, absList_cons, absList_cons, List.cons_append] at hx
    exact (List.cons.inj hx).2
  refine ⟨?_, hwfp, ?_, ?_, ?_, ?_⟩
  · rw [hres, hka, hva]
  · rw [habsp, htail]
  · rw [hszp, hsz']
    ring
  · rw [hcapp, hcap]
  · rw [hka] at hstp
    exact hstp

theorem put_new_evict_nil {s : Cache} {k : Nat} {v : Val}
    (h : WF s []) (hstore : s.store k = none) (hsz : s.size + 1 > s.cacheLimit) :
    (s.put k v).1 = some ⟨k, v, none, none⟩ ∧
    WF (s.put k v).2 [] ∧
    (s.put k v).2.size = s.size ∧
    (s.put k v).2.cacheLimit = s.cacheLimit ∧
    (s.put k v).2.store k = none := by
  obtain ⟨S, hEq, hwf, habs, hsz', hcap, hnid, hkv⟩ := put_new_spec h hstore
  rw [hEq, if_pos (by rw [hsz', hcap]; exact hsz)]
  obtain ⟨hres, hwfp, habsp, hszp, hcapp, hstp, hnidp⟩ := purge_cons_spec hwf
  have hx : [((S.entries s.nextId).key, (S.entries s.nextId).value)] = [(k, v)] := habs
  have hk2 : (S.entries s.nextId).key = k := by
    have := (List.cons.inj hx).1
    exact (Prod.mk.inj this).1
  have hv2 : (S.entries s.nextId).value = v := by
    have := (List.cons.inj hx).1
    exact (Prod.mk.inj this).2
  refine ⟨?_, hwfp, ?_, ?_, ?_⟩
  · rw [hres, hk2, hv2]
  · rw [hszp, hsz']
    ring
  · rw [hcapp, hcap]
  · rw [hk2] at hstp
    exact hstp

theorem removeAll_wf (s : Cache) : WF s.removeAll [] := by
  refine ⟨trivial, rfl, rfl, List.nodup_nil, ?_, ?_, ?_, rfl, ?_⟩
  · intro q i hq
    exact absurd hq (by simp [Cache.removeAll])
  · intro q _ a ha
    exact absurd ha (List.not_mem_nil a)
  · intro a ha
    exact absurd ha (List.not_mem_nil a)
  · intro a ha
    exact absurd ha (List.not_mem_nil a)

theorem collect_seg {ent : Nat → Entry} {pr : Option Nat} {l : List Nat}
    (h : segOk ent pr l none) :
    Cache.collect ent l.length l.head? = l.map (fun a => ((ent a).key, (ent a).value)) := by
  induction l generalizing pr with
  | nil => rfl
  | cons a rest ih =>
      obtain ⟨h1, h2, h3⟩ := h
      show ((ent a).key, (ent a).value) :: Cache.collect ent rest.length (ent a).next = _
      rw [h2, oor_none_right, ih h3]
      rfl

theorem toJSON_spec {s : Cache} {l : List Nat} (h : WF s l) :
    s.toJSON = (absList s l, s) := by
  have h1 : s.size.toNat = l.length := by
    rw [h.size_eq]
    exact Int.toNat_natCast l.length
  show (Cache.collect s.entries s.size.toNat s.last, s) = (absList s l, s)
  rw [h1, h.last_eq, collect_seg h.chain]
  rfl

theorem wf_absent {s : Cache} {l : List Nat} (h : WF s l) {k : Nat}
    (hk : ∀ a ∈ l, (s.entries a).key ≠ k) : s.store k = none := by
  cases hs : s.store k with
  | none => rfl
  | some i =>
      obtain ⟨hm, hkey⟩ := h.store_sound k i hs
      exact absurd hkey (hk i hm)

/-- The keys of a well-formed cache are the keys of its chain. -/
theorem wf_keys {s : Cache} {l : List Nat} (h : WF s l) (k : Nat) :
    k ∈ s.keys ↔ ∃ a ∈ l, (s.entries a).key = k := by
  show (s.store k).isSome ↔ _
  constructor
  · intro hk
    cases hs : s.store k with
    | none => rw [hs] at hk; cases hk
    | some i =>
        obtain ⟨hm, hkey⟩ := h.store_sound k i hs
        exact ⟨i, hm, hkey⟩
  · rintro ⟨a, ha, hkey⟩
    have hc := h.store_complete a ha
    rw [hkey] at hc
    rw [hc]
    rfl

/-- One public operation preserves the invariant; the size can only grow by
one, and only when the grown size still fits the capacity. -/
theorem wf_step (op : Op) {s : Cache} {l : List Nat} (h : WF s l) :
    ∃ L, WF (op.step s) L ∧ (op.step s).cacheLimit = s.cacheLimit ∧
      ((op.step s).size ≤ s.size ∨
        ((op.step s).size = s.size + 1 ∧ s.size + 1 ≤ s.cacheLimit)) := by
  have hsize0 : 0 ≤ s.size := by
    rw [h.size_eq]
    exact Int.natCast_nonneg _
  cases op with
  | put k v =>
      simp only [Op.step]
      cases hs : s.store k with
      | some eid =>
          obtain ⟨l₁, l₂, rfl⟩ := List.append_of_mem (h.store_sound k eid hs).1
          obtain ⟨_, hwf, _, hsz, hcap, _, _⟩ := put_hit_spec (v := v) h hs
          exact ⟨_, hwf, hcap, Or.inl (le_of_eq hsz)⟩
      | none =>
          by_cases hsz : s.size + 1 > s.cacheLimit
          · cases l with
            | nil =>
                obtain ⟨_, hwf, hsz', hcap, _⟩ := put_new_evict_nil (v := v) h hs hsz
                exact ⟨[], hwf, hcap, Or.inl (le_of_eq hsz')⟩
            | cons a t =>
                obtain ⟨_, hwf, _, hsz', hcap, _⟩ := put_new_evict_cons (v := v) h hs hsz
                exact ⟨_, hwf, hcap, Or.inl (le_of_eq hsz')⟩
          · obtain ⟨_, hwf, _, hsz', hcap⟩ := put_new_noevict (v := v) h hs hsz
            exact ⟨_, hwf, hcap, Or.inr ⟨hsz', by omega⟩⟩
  | get k =>
      simp only [Op.step]
      cases hs : s.store k with
      | some eid =>
          obtain ⟨l₁, l₂, rfl⟩ := List.append_of_mem (h.store_sound k eid hs).1
          obtain ⟨_, hwf, _, hsz, hcap, _, _⟩ := get_hit_spec h hs
          exact ⟨_, hwf, hcap, Or.inl (le_of_eq hsz)⟩
      | none =>
          rw [get_miss_spec hs]
          exact ⟨l, h, rfl, Or.inl (le_refl _)⟩
  | find k =>
      simp only [Op.step]
      exact ⟨l, h, rfl, Or.inl (le_refl _)⟩
  | set k v =>
      simp only [Op.step]
      cases hs : s.store k with
      | some eid =>
          obtain ⟨l₁, l₂, rfl⟩ := List.append_of_mem (h.store_sound k eid hs).1
          obtain ⟨_, hwf, _, hsz, hcap, _, _⟩ := set_hit_spec (v := v) h hs
          exact ⟨_, hwf, hcap, Or.inl (le_of_eq hsz)⟩
      | none =>
          rw [set_miss_spec hs]
          exact ⟨l, h, rfl, Or.inl (le_refl _)⟩
  | remove k =>
      simp only [Op.step]
      cases hs : s.store k with
      | some eid =>
          obtain ⟨l₁, l₂, rfl⟩ := List.append_of_mem (h.store_sound k eid hs).1
          obtain ⟨_, hwf, _, hsz, hcap, _, _⟩ := remove_hit_spec h hs
          exact ⟨_, hwf, hcap, Or.inl (by rw [hsz]; omega)⟩
      | none =>
          rw [remove_miss hs]
          exact ⟨l, h, rfl, Or.inl (le_refl _)⟩
  | purge =>
      simp only [Op.step]
      cases l with
      | nil =>
          rw [purge_empty_spec h]
          exact ⟨[], h, rfl, Or.inl (le_refl _)⟩
      | cons a t =>
          obtain ⟨_, hwf, _, hsz, hcap, _, _⟩ := purge_cons_spec h
          exact ⟨t, hwf, hcap, Or.inl (by rw [hsz]; omega)⟩
  | removeAll =>
      simp only [Op.step]
      exact ⟨[], removeAll_wf s, rfl, Or.inl hsize0⟩
  | toJSON =>
      simp only [Op.step]
      exact ⟨l, h, rfl, Or.inl (le_refl _)⟩

theorem inv_step {cap : Int} (op : Op) {s : Cache} (h : CacheInv cap s) : CacheInv cap (op.step s) := by
  obtain ⟨⟨l, hwf⟩, hcap, hsz⟩ := h
  obtain ⟨L, hwf', hcap', hdisj⟩ := wf_step op hwf
  refine ⟨⟨L, hwf'⟩, hcap'.trans hcap, ?_⟩
  rcases hdisj with h1 | ⟨h1, h2⟩ <;> omega

theorem inv_run {cap : Int} (ops : List Op) {s : Cache} (h : CacheInv cap s) :
    CacheInv cap (runOps s ops) := by
  induction ops generalizing s with
  | nil => exact h
  | cons op rest ih => exact ih (inv_step op h)

theorem inv_init {cap : Int} (hcap : 0 ≤ cap) : CacheInv cap (init cap) :=
  ⟨⟨[], wf_init cap⟩, rfl, hcap⟩

theorem wf_empty_iff {s : Cache} {l : List Nat} (h : WF s l) :
    s.size = 0 ↔ s.first = none ∧ s.last = none := by
  cases l with
  | nil =>
      simp only [h.size_eq, h.first_eq, h.last_eq]
      simp
  | cons a t =>
      simp only [h.size_eq, h.first_eq, h.last_eq]
      constructor
      · intro hc
        exfalso
        rw [List.length_cons] at hc
        push_cast at hc
        omega
      · rintro ⟨h1, -⟩
        obtain ⟨f, hf⟩ := getLast?_some_of_ne_nil (l := a :: t) (by simp)
        rw [hf] at h1
        cases h1

theorem wf_key_inj {s : Cache} {l : List Nat} (h : WF s l) :
    ∀ a ∈ l, ∀ b ∈ l, (s.entries a).key = (s.entries b).key → a = b := by
  intro a ha b hb hk
  have h1 := h.store_complete a ha
  have h2 := h.store_complete b hb
  rw [hk, h2] at h1
  exact (Option.some.inj h1).symm

theorem absList_length (s : Cache) (m : List Nat) :
    (absList s m).length = m.length := List.length_map _ _

theorem absList_map_fst {s : Cache} (m : List Nat) :
    (absList s m).map Prod.fst = m.map (fun a => (s.entries a).key) := by
  induction m with
  | nil => rfl
  | cons a t ih => simp [absList_cons, ih]

theorem runOps_append (s : Cache) (xs ys : List Op) :
    runOps s (xs ++ ys) = runOps (runOps s xs) ys := by
  induction xs generalizing s with
  | nil => rfl
  | cons op rest ih => exact ih (op.step s)

theorem find_step_id (s : Cache) (k : Nat) : Op.step s (.find k) = s := rfl

theorem runOps_replicate_find (s : Cache) (n : Nat) (k : Nat) :
    runOps s (List.replicate n (.find k)) = s := by
  induction n with
  | zero => rfl
  | succ m ih => exact ih

theorem replay_builds (todo : List (Nat × Val)) (t : Cache) (lt : List Nat)
    (d : List (Nat × Val))
    (hwf : WF t lt) (habs : absList t lt = d)
    (hnd : ((d ++ todo).map Prod.fst).Nodup)
    (hlen : (d.length : Int) + todo.length ≤ t.cacheLimit) :
    ∃ L, WF (replayPut t todo) L ∧ absList (replayPut t todo) L = d ++ todo ∧
      (replayPut t todo).cacheLimit = t.cacheLimit := by
  induction todo generalizing t lt d with
  | nil => exact ⟨lt, hwf, by simpa using habs, rfl⟩
  | cons kv rest ih =>
      obtain ⟨k, v⟩ := kv
      simp only [replayPut]
      have hkd : k ∉ d.map Prod.fst := by
        rw [List.map_append, List.nodup_append] at hnd
        intro hm
        exact hnd.2.2 hm (by simp)
      have hstore : t.store k = none := by
        refine wf_absent hwf ?_
        intro a ha hk
        refine hkd ?_
        rw [← habs, absList_map_fst]
        rw [← hk]
        exact List.mem_map_of_mem _ ha
      have hdlen : (d.length : Int) = t.size := by
        rw [hwf.size_eq, ← habs, absList_length]
      have hsz : ¬ t.size + 1 > t.cacheLimit := by
        simp only [List.length_cons] at hlen
        push_cast at hlen
        omega
      obtain ⟨_, hwf', habs', hsz', hcap'⟩ := put_new_noevict (v := v) hwf hstore hsz
      have hnd' : (((d ++ [(k, v)]) ++ rest).map Prod.fst).Nodup := by
        rw [List.append_assoc]
        simpa using hnd
      have hlen' : ((d ++ [(k, v)]).length : Int) + rest.length ≤ (t.put k v).2.cacheLimit := by
        rw [hcap']
        simp only [List.length_append, List.length_cons, List.length_nil] at hlen ⊢
        push_cast at hlen ⊢
        omega
      obtain ⟨L, hw, ha2, hc2⟩ := ih (t.put k v).2 (lt ++ [t.nextId]) (d ++ [(k, v)])
        hwf' (by rw [habs', habs]) hnd' hlen'
      refine ⟨L, hw, ?_, hc2.trans hcap'⟩
      rw [ha2, List.append_assoc]
      rfl

/-- C1: Capacity bound: starting from a cache built with positive capacity,
after any sequence of public operations `0 ≤ size ≤ capacity` holds; and when
`size = capacity`, a `put` of a fresh key returns exactly the (key, value)
pair of the entry at the tail of the recency list (the head of the
tail-to-head chain witnessing `WF`) and leaves `size = capacity`. -/
theorem claim_capacity_bound (cap : Int) (hcap : 1 ≤ cap) (ops : List Op) :
    0 ≤ (runOps (init cap) ops).size ∧
    (runOps (init cap) ops).size ≤ cap ∧
    (∀ k v, (runOps (init cap) ops).size = cap →
      (runOps (init cap) ops).store k = none →
      ∃ a t, WF (runOps (init cap) ops) (a :: t) ∧
        (((runOps (init cap) ops).put k v).1).map (fun e => (e.key, e.value)) =
          some (((runOps (init cap) ops).entries a).key,
                ((runOps (init cap) ops).entries a).value) ∧
        ((runOps (init cap) ops).put k v).2.size = cap) := by
  obtain ⟨⟨l, hwf⟩, hcapEq, hsz⟩ := inv_run ops (inv_init (show (0:Int) ≤ cap by omega))
  refine ⟨by rw [hwf.size_eq]; exact Int.natCast_nonneg _, hsz, ?_⟩
  intro k v hsize hstore
  cases l with
  | nil =>
      exfalso
      have h0 : (runOps (init cap) ops).size = 0 := hwf.size_eq
      omega
  | cons a t =>
      have hgt : (runOps (init cap) ops).size + 1 > (runOps (init cap) ops).cacheLimit := by
        rw [hsize, hcapEq]
        omega
      obtain ⟨hres, hwf', -, hsz', -, -⟩ := put_new_evict_cons (v := v) hwf hstore hgt
      exact ⟨a, t, hwf, by rw [hres]; rfl, by rw [hsz', hsize]⟩

theorem claim_capacity_bound_witness :
    ((1:Int) ≤ 2) ∧
    0 ≤ (runOps (init 2) [.put 0 (some 1), .put 1 (some 2), .put 2 (some 3), .get 0]).size ∧
    (runOps (init 2) [.put 0 (some 1), .put 1 (some 2), .put 2 (some 3), .get 0]).size ≤ 2 :=
  ⟨by norm_num,
   (claim_capacity_bound 2 (by norm_num) [.put 0 (some 1), .put 1 (some 2), .put 2 (some 3), .get 0]).1,
   (claim_capacity_bound 2 (by norm_num) [.put 0 (some 1), .put 1 (some 2), .put 2 (some 3), .get 0]).2.1⟩

/-- C2: Every public operation maps a state satisfying the structural
invariant `WF` (well-linked acyclic chain of exactly `size` nodes with
symmetric neighbour pointers, endpoints `_first`/`_last`, and the index in
lockstep with the chain) to a state satisfying it again; moreover in the
resulting state `size = 0` iff `_first` and `_last` are both absent. -/
theorem claim_invariant_preserved (op : Op) (s : Cache) (l : List Nat) (h : WF s l) :
    ∃ L, WF (op.step s) L ∧
      ((op.step s).size = 0 ↔ (op.step s).first = none ∧ (op.step s).last = none) := by
  obtain ⟨L, hwf, -, -⟩ := wf_step op h
  exact ⟨L, hwf, wf_empty_iff hwf⟩

theorem claim_invariant_preserved_witness :
    WF (init 3) [] ∧
    ∃ L, WF (Op.step (init 3) (.put 0 (some 5))) L ∧
      ((Op.step (init 3) (.put 0 (some 5))).size = 0 ↔
        (Op.step (init 3) (.put 0 (some 5))).first = none ∧
        (Op.step (init 3) (.put 0 (some 5))).last = none) :=
  ⟨wf_init 3, claim_invariant_preserved (.put 0 (some 5)) (init 3) [] (wf_init 3)⟩

/-- C5: `find` leaves the state unchanged (its body is a single store
read), its result carries the stored value exactly when the key is present,
and inserting any number of `find` calls into any operation sequence yields
the same final state as never calling it. -/
theorem claim_find :
    (∀ (s : Cache) (k : Nat),
      (s.find k).2 = s ∧
      ((s.find k).1).map Entry.value = (s.store k).map (fun i => (s.entries i).value) ∧
      ((s.find k).1 = none ↔ s.store k = none)) ∧
    (∀ (s : Cache) (ops₁ ops₂ : List Op) (n k : Nat),
      runOps s (ops₁ ++ List.replicate n (.find k) ++ ops₂) = runOps s (ops₁ ++ ops₂)) := by
  constructor
  · intro s k
    refine ⟨rfl, ?_, ?_⟩
    · show ((s.store k).map s.entries).map Entry.value = _
      cases s.store k <;> rfl
    · show (s.store k).map s.entries = none ↔ s.store k = none
      cases s.store k <;> simp
  · intro s ops₁ ops₂ n k
    rw [runOps_append, runOps_append, runOps_append, runOps_replicate_find]

theorem claim_find_witness :
    ((init 5).find 7).2 = init 5 ∧
    runOps (init 5) ([.put 0 (some 1)] ++ List.replicate 3 (.find 0) ++ [.put 1 none])
      = runOps (init 5) ([.put 0 (some 1)] ++ [.put 1 none]) :=
  ⟨(claim_find.1 (init 5) 7).1,
   claim_find.2 (init 5) [.put 0 (some 1)] [.put 1 none] 3 0⟩

/-- C6: `set` on an absent key returns `undefined` and leaves the state
unchanged (no insertion); on a present key it returns the previous value,
moves the entry to the head with the new value (recency effect of a hit),
and never changes `size`. -/
theorem claim_set :
    (∀ (s : Cache) (k : Nat) (v : Val), s.store k = none → s.set k v = (none, s)) ∧
    (∀ (s : Cache) (l₁ l₂ : List Nat) (eid k : Nat) (v : Val),
      WF s (l₁ ++ eid :: l₂) → s.store k = some eid →
      (s.set k v).1 = (s.entries eid).value ∧
      WF (s.set k v).2 (l₁ ++ l₂ ++ [eid]) ∧
      absList (s.set k v).2 (l₁ ++ l₂ ++ [eid]) =
        absList s l₁ ++ absList s l₂ ++ [(k, v)] ∧
      (s.set k v).2.size = s.size) := by
  constructor
  · intro s k v h
    exact set_miss_spec h
  · intro s l₁ l₂ eid k v h hstore
    obtain ⟨h1, h2, h3, h4, -, -, -⟩ := set_hit_spec (v := v) h hstore
    exact ⟨h1, h2, h3, h4⟩

/-- C7: `remove` on a present key deletes the entry: it returns the stored
value, the remaining chain is the previous one with the entry spliced out
(still well formed), `size` drops by exactly one, and the key is gone from
`keys`; on an absent key it returns `undefined` and leaves the state
unchanged. -/
theorem claim_remove :
    (∀ (s : Cache) (k : Nat), s.store k = none → s.remove k = (none, s)) ∧
    (∀ (s : Cache) (l₁ l₂ : List Nat) (eid k : Nat),
      WF s (l₁ ++ eid :: l₂) → s.store k = some eid →
      (s.remove k).1 = (s.entries eid).value ∧
      WF (s.remove k).2 (l₁ ++ l₂) ∧
      absList (s.remove k).2 (l₁ ++ l₂) = absList s l₁ ++ absList s l₂ ∧
      (s.remove k).2.size = s.size - 1 ∧
      k ∉ (s.remove k).2.keys) := by
  constructor
  · intro s k h
    exact remove_miss h
  · intro s l₁ l₂ eid k h hstore
    obtain ⟨h1, h2, h3, h4, -, h6, -⟩ := remove_hit_spec h hstore
    refine ⟨h1, h2, h3, h4, ?_⟩
    show ¬ ((s.remove k).2.store k).isSome = true
    rw [h6]
    simp

/-- C8: `toJSON` returns the (key, value) records of the chain from the
tail (least recently used) to the head (most recently used) and does not
mutate the cache. -/
theorem claim_toJSON (s : Cache) (l : List Nat) (h : WF s l) :
    (s.toJSON).1 = absList s l ∧ (s.toJSON).2 = s := by
  rw [toJSON_spec h]
  exact ⟨rfl, rfl⟩

/-! Concrete states shared by the witnesses. -/

theorem w1_wf : WF w1 [0] := by
  have h := put_new_noevict (k := 0) (v := some 10) (wf_init 3) rfl (by decide)
  exact h.2.1

theorem w2_wf : WF w2 [0, 1] := by
  have h := put_new_noevict (k := 1) (v := some 11) w1_wf (by decide) (by decide)
  exact h.2.1

theorem claim_set_witness :
    w2.store 0 = some 0 ∧ WF w2 ([] ++ 0 :: [1]) ∧
    ((w2.set 0 (some 7)).1 = (w2.entries 0).value ∧
     WF (w2.set 0 (some 7)).2 ([] ++ [1] ++ [0]) ∧
     absList (w2.set 0 (some 7)).2 ([] ++ [1] ++ [0]) =
       absList w2 [] ++ absList w2 [1] ++ [(0, some 7)] ∧
     (w2.set 0 (some 7)).2.size = w2.size) :=
  ⟨by decide, w2_wf, claim_set.2 w2 [] [1] 0 0 (some 7) w2_wf (by decide)⟩

theorem claim_remove_witness :
    w2.store 0 = some 0 ∧ WF w2 ([] ++ 0 :: [1]) ∧
    ((w2.remove 0).1 = (w2.entries 0).value ∧
     WF (w2.remove 0).2 ([] ++ [1]) ∧
     absList (w2.remove 0).2 ([] ++ [1]) = absList w2 [] ++ absList w2 [1] ∧
     (w2.remove 0).2.size = w2.size - 1 ∧
     0 ∉ (w2.remove 0).2.keys) :=
  ⟨by decide, w2_wf, claim_remove.2 w2 [] [1] 0 0 w2_wf (by decide)⟩

theorem claim_toJSON_witness :
    WF w2 [0, 1] ∧ (w2.toJSON).1 = absList w2 [0, 1] ∧ (w2.toJSON).2 = w2 :=
  ⟨w2_wf, claim_toJSON w2 [0, 1] w2_wf⟩

/-- C3: `put`: on an existing key it overwrites the value in place, moves
the node to the head, returns `undefined` (no eviction) and keeps `size`; on
a fresh key it links a new entry at the head and increments `size`, and if
the size then exceeds the capacity it purges the current tail, returning
that entry's (key, value) pair and restoring the previous size, else it
returns `undefined`. -/
theorem claim_put :
    (∀ (s : Cache) (l₁ l₂ : List Nat) (eid k : Nat) (v : Val),
      WF s (l₁ ++ eid :: l₂) → s.store k = some eid →
      (s.put k v).1 = none ∧
      WF (s.put k v).2 (l₁ ++ l₂ ++ [eid]) ∧
      absList (s.put k v).2 (l₁ ++ l₂ ++ [eid]) =
        absList s l₁ ++ absList s l₂ ++ [(k, v)] ∧
      (s.put k v).2.size = s.size) ∧
    (∀ (s : Cache) (l : List Nat) (k : Nat) (v : Val),
      WF s l → s.store k = none →
      (¬ s.size + 1 > s.cacheLimit →
        (s.put k v).1 = none ∧
        WF (s.put k v).2 (l ++ [s.nextId]) ∧
        absList (s.put k v).2 (l ++ [s.nextId]) = absList s l ++ [(k, v)] ∧
        (s.put k v).2.size = s.size + 1) ∧
      (s.size + 1 > s.cacheLimit →
        ((s.put k v).1).map (fun e => (e.key, e.value)) = (absList s l ++ [(k, v)]).head? ∧
        (s.put k v).2.size = s.size ∧
        ∃ L, WF (s.put k v).2 L ∧
          absList (s.put k v).2 L = (absList s l ++ [(k, v)]).tail)) := by
  constructor
  · intro s l₁ l₂ eid k v h hstore
    obtain ⟨h1, h2, h3, h4, -, -, -⟩ := put_hit_spec (v := v) h hstore
    exact ⟨h1, h2, h3, h4⟩
  · intro s l k v h hstore
    constructor
    · intro hsz
      obtain ⟨h1, h2, h3, h4, -⟩ := put_new_noevict (v := v) h hstore hsz
      exact ⟨h1, h2, h3, h4⟩
    · intro hsz
      cases l with
      | nil =>
          obtain ⟨h1, h2, h3, -, -⟩ := put_new_evict_nil (v := v) h hstore hsz
          exact ⟨by rw [h1]; rfl, h3, [], h2, rfl⟩
      | cons a t =>
          obtain ⟨h1, h2, h3, h4, -, -⟩ := put_new_evict_cons (v := v) h hstore hsz
          refine ⟨by rw [h1]; rfl, h4, t ++ [s.nextId], h2, by rw [h3]; rfl⟩

theorem claim_put_witness :
    w1.store 0 = some 0 ∧ WF w1 ([] ++ 0 :: []) ∧
    ((w1.put 0 (some 4)).1 = none ∧
     WF (w1.put 0 (some 4)).2 ([] ++ [] ++ [0]) ∧
     absList (w1.put 0 (some 4)).2 ([] ++ [] ++ [0]) =
       absList w1 [] ++ absList w1 [] ++ [(0, some 4)] ∧
     (w1.put 0 (some 4)).2.size = w1.size) :=
  ⟨by decide, w1_wf, claim_put.1 w1 [] [] 0 0 (some 4) w1_wf (by decide)⟩

/-- C4: `get` misses return `undefined` and change nothing; hits return
the stored value and move the entry to the head.  Consequently after
`put a; put b; put c` into a cache of capacity ≥ 3 the chain tail-to-head is
`a, b, c` (i.e. head-to-tail `c, b, a`), and after `get a` it is `b, c, a`
(head-to-tail `a, c, b`). -/
theorem claim_get :
    (∀ (s : Cache) (k : Nat), s.store k = none → s.get k = (none, s)) ∧
    (∀ (s : Cache) (l₁ l₂ : List Nat) (eid k : Nat),
      WF s (l₁ ++ eid :: l₂) → s.store k = some eid →
      (s.get k).1 = (s.entries eid).value ∧
      WF (s.get k).2 (l₁ ++ l₂ ++ [eid]) ∧
      absList (s.get k).2 (l₁ ++ l₂ ++ [eid]) =
        absList s l₁ ++ absList s l₂ ++ [((s.entries eid).key, (s.entries eid).value)]) ∧
    (∀ (cap : Int) (a b c : Nat) (va vb vc : Val),
      3 ≤ cap → a ≠ b → a ≠ c → b ≠ c →
      ∃ x y z : Nat,
        WF (runOps (init cap) [.put a va, .put b vb, .put c vc]) [x, y, z] ∧
        absList (runOps (init cap) [.put a va, .put b vb, .put c vc]) [x, y, z]
          = [(a, va), (b, vb), (c, vc)] ∧
        WF ((runOps (init cap) [.put a va, .put b vb, .put c vc]).get a).2 [y, z, x] ∧
        absList ((runOps (init cap) [.put a va, .put b vb, .put c vc]).get a).2 [y, z, x]
          = [(b, vb), (c, vc), (a, va)]) := by
  refine ⟨?_, ?_, ?_⟩
  · intro s k h
    exact get_miss_spec h
  · intro s l₁ l₂ eid k h hstore
    obtain ⟨h1, h2, h3, -, -, -, -⟩ := get_hit_spec h hstore
    exact ⟨h1, h2, h3⟩
  · intro cap a b c va vb vc hcap hab hac hbc
    simp only [runOps, Op.step]
    have hns0 : ¬ (init cap).size + 1 > (init cap).cacheLimit := by
      show ¬ (0:Int) + 1 > cap
      omega
    obtain ⟨-, hwf1, habs1, hsz1, hcap1⟩ :=
      put_new_noevict (k := a) (v := va) (wf_init cap) rfl hns0
    rw [List.nil_append] at hwf1 habs1
    rw [show absList (init cap) [] = [] from rfl, List.nil_append] at habs1
    have hp0 := habs1
    rw [absList_cons, absList_nil] at hp0
    obtain ⟨hk0, hv0⟩ := Prod.mk.inj (List.cons.inj hp0).1
    have hstb : ((init cap).put a va).2.store b = none := by
      refine wf_absent hwf1 ?_
      intro x hx hkx
      rcases List.mem_singleton.mp hx with rfl
      rw [hk0] at hkx
      exact hab hkx
    have hns1 : ¬ ((init cap).put a va).2.size + 1 > ((init cap).put a va).2.cacheLimit := by
      rw [hsz1, hcap1]
      show ¬ (init cap).size + 1 + 1 > cap
      show ¬ (0:Int) + 1 + 1 > cap
      omega
    obtain ⟨-, hwf2, habs2, hsz2, hcap2⟩ := put_new_noevict (v := vb) hwf1 hstb hns1
    have hwf2' : WF (((init cap).put a va).2.put b vb).2
        [(init cap).nextId, ((init cap).put a va).2.nextId] := hwf2
    have habs2' : absList (((init cap).put a va).2.put b vb).2
        [(init cap).nextId, ((init cap).put a va).2.nextId] = [(a, va), (b, vb)] := by
      have hx := habs2
      rw [habs1] at hx
      exact hx
    have hp1 := habs2'
    rw [absList_cons, absList_cons, absList_nil] at hp1
    obtain ⟨hk0', hv0'⟩ := Prod.mk.inj (List.cons.inj hp1).1
    obtain ⟨hk1, hv1⟩ := Prod.mk.inj (List.cons.inj (List.cons.inj hp1).2).1
    have hstc : (((init cap).put a va).2.put b vb).2.store c = none := by
      refine wf_absent hwf2' ?_
      intro x hx hkx
      rcases List.mem_cons.mp hx with rfl | hx2
      · rw [hk0'] at hkx
        exact hac hkx
      · rcases List.mem_singleton.mp hx2 with rfl
        rw [hk1] at hkx
        exact hbc hkx
    have hns2 : ¬ (((init cap).put a va).2.put b vb).2.size + 1
        > (((init cap).put a va).2.put b vb).2.cacheLimit := by
      rw [hsz2, hcap2, hsz1, hcap1]
      show ¬ (init cap).size + 1 + 1 + 1 > cap
      show ¬ (0:Int) + 1 + 1 + 1 > cap
      omega
    obtain ⟨-, hwf3, habs3, -, -⟩ := put_new_noevict (v := vc) hwf2' hstc hns2
    have hwf3' : WF ((((init cap).put a va).2.put b vb).2.put c vc).2
        [(init cap).nextId, ((init cap).put a va).2.nextId,
         (((init cap).put a va).2.put b vb).2.nextId] := hwf3
    have habs3' : absList ((((init cap).put a va).2.put b vb).2.put c vc).2
        [(init cap).nextId, ((init cap).put a va).2.nextId,
         (((init cap).put a va).2.put b vb).2.nextId] = [(a, va), (b, vb), (c, vc)] := by
      have hx := habs3
      rw [habs2'] at hx
      exact hx
    have hp2 := habs3'
    rw [absList_cons, absList_cons, absList_cons, absList_nil] at hp2
    obtain ⟨hk0'', hv0''⟩ := Prod.mk.inj (List.cons.inj hp2).1
    obtain ⟨hk1', hv1'⟩ := Prod.mk.inj (List.cons.inj (List.cons.inj hp2).2).1
    obtain ⟨hk2, hv2⟩ := Prod.mk.inj (List.cons.inj (List.cons.inj (List.cons.inj hp2).2).2).1
    have htail : absList ((((init cap).put a va).2.put b vb).2.put c vc).2
        [((init cap).put a va).2.nextId, (((init cap).put a va).2.put b vb).2.nextId]
        = [(b, vb), (c, vc)] := by
      have hx := habs3'
      rw [absList_cons] at hx
      exact (List.cons.inj hx).2
    have hsta : ((((init cap).put a va).2.put b vb).2.put c vc).2.store a
        = some (init cap).nextId := by
      have hx := hwf3'.store_complete (init cap).nextId (by simp)
      rw [hk0''] at hx
      exact hx
    obtain ⟨-, hwfg, habsg, -, -, -, -⟩ :=
      get_hit_spec (show WF ((((init cap).put a va).2.put b vb).2.put c vc).2
        ([] ++ (init cap).nextId :: [((init cap).put a va).2.nextId,
          (((init cap).put a va).2.put b vb).2.nextId]) from hwf3') hsta
    refine ⟨(init cap).nextId, ((init cap).put a va).2.nextId,
      (((init cap).put a va).2.put b vb).2.nextId, hwf3', habs3', hwfg, ?_⟩
    have hx := habsg
    rw [htail, hk0'', hv0''] at hx
    exact hx

theorem claim_get_witness :
    ((3:Int) ≤ 3) ∧ (0 ≠ 1) ∧ (0 ≠ 2) ∧ (1 ≠ 2) ∧
    (∃ x y z : Nat,
      WF (runOps (init 3) [.put 0 (some 1), .put 1 (some 2), .put 2 (some 3)]) [x, y, z] ∧
      absList (runOps (init 3) [.put 0 (some 1), .put 1 (some 2), .put 2 (some 3)]) [x, y, z]
        = [(0, some 1), (1, some 2), (2, some 3)] ∧
      WF ((runOps (init 3) [.put 0 (some 1), .put 1 (some 2), .put 2 (some 3)]).get 0).2 [y, z, x] ∧
      absList ((runOps (init 3) [.put 0 (some 1), .put 1 (some 2), .put 2 (some 3)]).get 0).2 [y, z, x]
        = [(1, some 2), (2, some 3), (0, some 1)]) :=
  ⟨by norm_num, by decide, by decide, by decide,
   claim_get.2.2 3 0 1 2 (some 1) (some 2) (some 3) (by norm_num) (by decide) (by decide) (by decide)⟩

/-- C9: Round-trip: exporting with `toJSON` and replaying `put` over the
exported pairs, in order, into a fresh cache of the same capacity rebuilds a
cache whose chain carries the same (key, value) pairs in the same
tail-to-head recency order (hence the same key set). -/
theorem claim_roundtrip (s : Cache) (l : List Nat) (h : WF s l)
    (hsz : s.size ≤ s.cacheLimit) :
    ∃ L, WF (replayPut (init s.cacheLimit) (s.toJSON).1) L ∧
      absList (replayPut (init s.cacheLimit) (s.toJSON).1) L = absList s l := by
  have hjson : (s.toJSON).1 = absList s l := by rw [toJSON_spec h]
  have hnd : (([] ++ absList s l).map Prod.fst).Nodup := by
    rw [List.nil_append, absList_map_fst]
    refine List.Nodup.map_on ?_ h.nodup
    intro x hx y hy hk
    exact wf_key_inj h x hx y hy hk
  have hlen : ((([] : List (Nat × Val)).length : Int)) + ((absList s l).length : Int)
      ≤ (init s.cacheLimit).cacheLimit := by
    show (0:Int) + ((absList s l).length : Int) ≤ s.cacheLimit
    rw [absList_length, ← h.size_eq]
    omega
  obtain ⟨L, hw, ha, -⟩ :=
    replay_builds (absList s l) (init s.cacheLimit) [] [] (wf_init _) rfl hnd hlen
  rw [hjson]
  exact ⟨L, hw, by rw [ha, List.nil_append]⟩

theorem claim_roundtrip_witness :
    WF w2 [0, 1] ∧ w2.size ≤ w2.cacheLimit ∧
    ∃ L, WF (replayPut (init w2.cacheLimit) (w2.toJSON).1) L ∧
      absList (replayPut (init w2.cacheLimit) (w2.toJSON).1) L = absList w2 [0, 1] :=
  ⟨w2_wf, by decide, claim_roundtrip w2 [0, 1] w2_wf (by decide)⟩

theorem abs_last_pair {F s : Cache} {m : List Nat} {n k : Nat} {v : Val}
    (habs : absList F (m ++ [n]) = absList s m ++ [(k, v)]) :
    (F.entries n).key = k ∧ (F.entries n).value = v := by
  rw [absList_append] at habs
  have hlen : (absList F m).length = (absList s m).length := by
    rw [absList_length, absList_length]
  obtain ⟨-, h2⟩ := List.append_inj habs hlen
  rw [absList_cons, absList_nil] at h2
  exact Prod.mk.inj (List.cons.inj h2).1

theorem undefined_present_aux {F : Cache} {m : List Nat} {n k : Nat} (v : Val)
    (hwf : WF F (m ++ [n]))
    (hk : (F.entries n).key = k) (hv : (F.entries n).value = none) :
    (F.get k).1 = none ∧ (F.set k v).1 = none ∧ (F.remove k).1 = none ∧
    F.store k ≠ none ∧ ∃ L x, WF F L ∧ x ∈ L ∧ (F.entries x).key = k := by
  have hstore : F.store k = some n := by
    have hx := hwf.store_complete n (by simp)
    rw [hk] at hx
    exact hx
  have hwf' : WF F (m ++ n :: []) := hwf
  obtain ⟨hg, -, -, -, -, -, -⟩ := get_hit_spec hwf' hstore
  obtain ⟨hs2, -, -, -, -, -, -⟩ := set_hit_spec (v := v) hwf' hstore
  obtain ⟨hr, -, -, -, -, -, -⟩ := remove_hit_spec hwf' hstore
  exact ⟨by rw [hg, hv], by rw [hs2, hv], by rw [hr, hv],
    by rw [hstore]; simp, m ++ [n], n, hwf, by simp, hk⟩

/-- C10: The "not found" signal of `get`, `set` and `remove` is the value
`undefined` (`none`): on an absent key all three return it; and after
`put k undefined` (capacity ≥ 1) the three calls still return `undefined`
for `k`, indistinguishable from a never-inserted key, although `k` is present
in the index and its entry is part of the size-counted chain. -/
theorem claim_undefined_signal :
    (∀ (s : Cache) (k : Nat) (v : Val), s.store k = none →
      (s.get k).1 = none ∧ (s.set k v).1 = none ∧ (s.remove k).1 = none) ∧
    (∀ (s : Cache) (l : List Nat) (k : Nat) (v : Val),
      WF s l → 1 ≤ s.cacheLimit → s.store k = none →
      ((s.put k none).2.get k).1 = none ∧
      ((s.put k none).2.set k v).1 = none ∧
      ((s.put k none).2.remove k).1 = none ∧
      (s.put k none).2.store k ≠ none ∧
      ∃ L x, WF (s.put k none).2 L ∧ x ∈ L ∧ ((s.put k none).2.entries x).key = k) := by
  constructor
  · intro s k v hstore
    refine ⟨?_, ?_, ?_⟩
    · rw [get_miss_spec hstore]
    · rw [set_miss_spec hstore]
    · rw [remove_miss hstore]
  · intro s l k v h hcap hstore
    by_cases hsz : s.size + 1 > s.cacheLimit
    · cases l with
      | nil =>
          exfalso
          have h0 : s.size = 0 := h.size_eq
          omega
      | cons a t =>
          obtain ⟨-, hwf', habs', -, -, -⟩ := put_new_evict_cons (v := none) h hstore hsz
          obtain ⟨hk, hv⟩ := abs_last_pair habs'
          exact undefined_present_aux v hwf' hk hv
    · obtain ⟨-, hwf', habs', -, -⟩ := put_new_noevict (v := none) h hstore hsz
      obtain ⟨hk, hv⟩ := abs_last_pair habs'
      exact undefined_present_aux v hwf' hk hv

theorem claim_undefined_signal_witness :
    ((init 3).store 5 = none ∧
      (((init 3).get 5).1 = none ∧ ((init 3).set 5 (some 1)).1 = none ∧
       ((init 3).remove 5).1 = none)) ∧
    (WF w2 [0, 1] ∧ (1:Int) ≤ w2.cacheLimit ∧ w2.store 5 = none ∧
      (((w2.put 5 none).2.get 5).1 = none ∧
       ((w2.put 5 none).2.set 5 (some 1)).1 = none ∧
       ((w2.put 5 none).2.remove 5).1 = none ∧
       (w2.put 5 none).2.store 5 ≠ none ∧
       ∃ L x, WF (w2.put 5 none).2 L ∧ x ∈ L ∧ ((w2.put 5 none).2.entries x).key = 5)) :=
  ⟨⟨rfl, claim_undefined_signal.1 (init 3) 5 (some 1) rfl⟩,
   ⟨w2_wf, by decide, by decide,
    claim_undefined_signal.2 w2 [0, 1] 5 (some 1) w2_wf (by decide) (by decide)⟩⟩
